import Mathlib

/-!
# MyVector (DynamicArray/MyVector.cpp): a shallow embedding

The C++ class `MyVector<T>` keeps three fields, `data_` (an owning pointer to a
heap array), `size_` and `capacity_`.  The embedding makes the machine state
explicit:

* the free store is a list of blocks; the address of a block is its position in
  the list, a block is `some cells` while it is live and `none` once it has been
  released with `delete[]`; addresses are never reused, so a dangling pointer
  stays recognisable;
* `new T[n]` may throw `std::bad_alloc`; whether the next request fails is read
  from a script carried by the state (`allocFails`), an empty script meaning
  that every request succeeds;
* objects of type `MyVector` live in an object store indexed by their identity
  (the value of `this`), so that `this == &other` can be decided;
* a reference parameter (`const T&`, `T&&`) is bound either to an object
  outside the free store, given by the value it holds, or to a cell of the free
  store, which is read in the state in which the function reads the parameter;
* `size_t` arithmetic that can wrap is taken modulo `2 ^ 64`;
* text sent to `std::cout` is appended to the field `cout`; `operator<<` is
  given the text of its stream before the call and yields the text after it;
* an operation ends normally, ends with a C++ exception (the state reached when
  the exception leaves the operation is kept), or has undefined behaviour
  (use of a null, dangling or out-of-bounds pointer).

Line 134 of the source lacks the terminating `;` of the `resize(...)` call in
`pop_back`; the statement is read as the call it spells out.
-/

namespace MyVec

/-- Number of values of `size_t` (64-bit). -/
def SIZE_MOD : Nat := 2 ^ 64

/-- The two exceptions that can leave the class. -/
inductive Exn where
  | bad_alloc
  | out_of_range
deriving DecidableEq

/-- How a call ends: normally, with an exception, or with undefined behaviour. -/
inductive Outcome (σ : Type) where
  | ok (s : σ)
  | threw (e : Exn) (s : σ)
  | ub

/-- The three data members of `MyVector<T>`; `data_ = none` is `nullptr`. -/
structure MyVector where
  data_ : Option Nat
  size_ : Nat
  capacity_ : Nat
deriving DecidableEq

/-- Machine state: free store, allocation script, object store, standard output. -/
structure World (α : Type) where
  blocks : List (Option (List α))
  allocFails : List Bool
  objs : Nat → MyVector
  cout : String

/-- A reference `T&`: base pointer and element offset. -/
structure Ref where
  base : Option Nat
  off : Nat
deriving DecidableEq

variable {α : Type}

/-- Overwrite the object stored at identity `this`. -/
def World.setObj (w : World α) (this : Nat) (v : MyVector) : World α :=
  { w with objs := fun k => if k = this then v else w.objs k }

/-- Output `std::cout << s`. -/
def World.print (w : World α) (s : String) : World α :=
  { w with cout := w.cout ++ s }

/-- Expression `new T[n]`: `none` when the request throws `std::bad_alloc`; otherwise the
address of a fresh block of `n` default-initialised cells. -/
def new_array [Inhabited α] (n : Nat) (w : World α) : Option Nat × World α :=
  match w.allocFails with
  | true :: rest => (none, { w with allocFails := rest })
  | false :: rest =>
    (some w.blocks.length,
      { w with blocks := w.blocks ++ [some (List.replicate n default)], allocFails := rest })
  | [] =>
    (some w.blocks.length,
      { w with blocks := w.blocks ++ [some (List.replicate n default)] })

/-- Statement `delete[] p`: nothing for `nullptr`, releases a live block, undefined
behaviour (`none`) for any other pointer. -/
def delete_array (p : Option Nat) (w : World α) : Option (World α) :=
  match p with
  | none => some w
  | some a =>
    match w.blocks[a]? with
    | some (some _) => some { w with blocks := w.blocks.set a none }
    | _ => none

/-- Read `p[i]`; `none` is undefined behaviour. -/
def rd (p : Option Nat) (i : Nat) (w : World α) : Option α :=
  match p with
  | none => none
  | some a =>
    match w.blocks[a]? with
    | some (some buf) => buf[i]?
    | _ => none

/-- Assign `p[i] = x`; `none` is undefined behaviour. -/
def wr (p : Option Nat) (i : Nat) (x : α) (w : World α) : Option (World α) :=
  match p with
  | none => none
  | some a =>
    match w.blocks[a]? with
    | some (some buf) =>
      if i < buf.length then some { w with blocks := w.blocks.set a (some (buf.set i x)) }
      else none
    | _ => none

/-- The element loop `for (i = 0; i < n; ++i) dst[i] = src[i]`, in index order.
It is the loop of `resize` (where the right-hand side is `std::move(data_[i])`)
and the behaviour of `std::copy(src, src + n, dst)`. -/
def copy_elems (src dst : Option Nat) : Nat → World α → Option (World α)
  | 0, w => some w
  | n + 1, w =>
    match copy_elems src dst n w with
    | none => none
    | some w1 =>
      match rd src n w1 with
      | none => none
      | some x => wr dst n x w1

/-- Default constructor `MyVector()`. -/
def ctor_default (this : Nat) (w : World α) : Outcome (World α) :=
  .ok (w.setObj this { data_ := none, size_ := 0, capacity_ := 0 })

/-- Constructor `explicit MyVector(size_t initial_capacity)`. -/
def ctor_capacity [Inhabited α] (this : Nat) (initial_capacity : Nat) (w : World α) :
    Outcome (World α) :=
  if initial_capacity = 0 then
    .ok (w.setObj this { data_ := none, size_ := 0, capacity_ := 0 })
  else
    match new_array initial_capacity w with
    | (none, w1) => .threw .bad_alloc w1
    | (some a, w1) =>
      .ok (w1.setObj this { data_ := some a, size_ := 0, capacity_ := initial_capacity })

/-- Destructor `~MyVector()`. -/
def dtor (this : Nat) (w : World α) : Outcome (World α) :=
  match delete_array (w.objs this).data_ w with
  | none => .ub
  | some w1 => .ok (w1.setObj this { (w1.objs this) with data_ := none })

/-- Copy constructor `MyVector(const MyVector& other)`. -/
def ctor_copy [Inhabited α] (this other : Nat) (w : World α) : Outcome (World α) :=
  let w0 := w.print "Copy constructor called.\n"
  match new_array (w0.objs other).capacity_ w0 with
  | (none, w1) => .threw .bad_alloc w1
  | (some a, w1) =>
    let w2 := w1.setObj this { (w1.objs this) with data_ := some a }
    match copy_elems (w2.objs other).data_ (w2.objs this).data_ (w2.objs other).size_ w2 with
    | none => .ub
    | some w3 =>
      let w4 := w3.setObj this { (w3.objs this) with size_ := (w3.objs other).size_ }
      .ok (w4.setObj this { (w4.objs this) with capacity_ := (w4.objs other).capacity_ })

/-- Copy assignment `MyVector& operator=(const MyVector& other)`. -/
def assign_copy [Inhabited α] (this other : Nat) (w : World α) : Outcome (World α) :=
  let w0 := w.print "Copy assignment operator called.\n"
  if this = other then .ok w0
  else
    match delete_array (w0.objs this).data_ w0 with
    | none => .ub
    | some w1 =>
      match new_array (w1.objs other).capacity_ w1 with
      | (none, w2) => .threw .bad_alloc w2
      | (some a, w2) =>
        let w3 := w2.setObj this { (w2.objs this) with data_ := some a }
        match copy_elems (w3.objs other).data_ (w3.objs this).data_ (w3.objs other).size_ w3 with
        | none => .ub
        | some w4 =>
          let w5 := w4.setObj this { (w4.objs this) with size_ := (w4.objs other).size_ }
          .ok (w5.setObj this { (w5.objs this) with capacity_ := (w5.objs other).capacity_ })

/-- Move constructor `MyVector(MyVector&& other) noexcept`. -/
def ctor_move (this other : Nat) (w : World α) : Outcome (World α) :=
  let w0 := w.print "Move constructor called.\n"
  let w1 := w0.setObj this { (w0.objs this) with data_ := (w0.objs other).data_ }
  let w2 := w1.setObj this { (w1.objs this) with size_ := (w1.objs other).size_ }
  let w3 := w2.setObj this { (w2.objs this) with capacity_ := (w2.objs other).capacity_ }
  let w4 := w3.setObj other { (w3.objs other) with data_ := none }
  let w5 := w4.setObj other { (w4.objs other) with size_ := 0 }
  .ok (w5.setObj other { (w5.objs other) with capacity_ := 0 })

/-- Move assignment `MyVector& operator=(MyVector&& other) noexcept`. -/
def assign_move (this other : Nat) (w : World α) : Outcome (World α) :=
  let w0 := w.print "Move assignment operator called.\n"
  if this = other then .ok w0
  else
    match delete_array (w0.objs this).data_ w0 with
    | none => .ub
    | some w1 =>
      let w2 := w1.setObj this { (w1.objs this) with data_ := (w1.objs other).data_ }
      let w3 := w2.setObj this { (w2.objs this) with size_ := (w2.objs other).size_ }
      let w4 := w3.setObj this { (w3.objs this) with capacity_ := (w3.objs other).capacity_ }
      let w5 := w4.setObj other { (w4.objs other) with data_ := none }
      let w6 := w5.setObj other { (w5.objs other) with size_ := 0 }
      .ok (w6.setObj other { (w6.objs other) with capacity_ := 0 })

/-- Private member `void resize(size_t new_capacity)`. -/
def resize [Inhabited α] (this : Nat) (new_capacity : Nat) (w : World α) : Outcome (World α) :=
  if new_capacity ≤ (w.objs this).size_ then .ok w
  else
    let w0 := w.print
      ("Resizing from " ++ toString (w.objs this).capacity_ ++ " to " ++ toString new_capacity
        ++ "\n")
    match new_array new_capacity w0 with
    | (none, w1) => .threw .bad_alloc w1
    | (some new_data, w1) =>
      match copy_elems (w1.objs this).data_ (some new_data) (w1.objs this).size_ w1 with
      | none => .ub
      | some w2 =>
        match delete_array (w2.objs this).data_ w2 with
        | none => .ub
        | some w3 =>
          let w4 := w3.setObj this { (w3.objs this) with data_ := some new_data }
          .ok (w4.setObj this { (w4.objs this) with capacity_ := new_capacity })

/-- The object a reference parameter (`const T&` or `T&&`) is bound to: an
object outside the free store, such as a local variable or a temporary,
holding the value `x`; or a cell of the free store, such as an element of a
container obtained with `operator[]` or `at`. -/
inductive Arg (α : Type) where
  | val (x : α)
  | cell (r : Ref)

/-- Read through a reference parameter; `none` is undefined behaviour. -/
def Arg.read (a : Arg α) (w : World α) : Option α :=
  match a with
  | .val x => some x
  | .cell r => rd r.base r.off w

/-- Member `void push_back(const T& value)`; `value` is read by the assignment
`data_[size_++] = value`, after the capacity check. -/
def push_back [Inhabited α] (this : Nat) (value : Arg α) (w : World α) : Outcome (World α) :=
  let grown :=
    if (w.objs this).size_ ≥ (w.objs this).capacity_ then
      resize this
        (if (w.objs this).capacity_ = 0 then 1 else (w.objs this).capacity_ * 2 % SIZE_MOD) w
    else .ok w
  match grown with
  | .ok w1 =>
    match value.read w1 with
    | none => .ub
    | some x =>
      match wr (w1.objs this).data_ (w1.objs this).size_ x w1 with
      | none => .ub
      | some w2 =>
        .ok (w2.setObj this
          { (w2.objs this) with size_ := ((w2.objs this).size_ + 1) % SIZE_MOD })
  | .threw e w1 => .threw e w1
  | .ub => .ub

/-- Member `void push_back(T&& value)`: the same statements, the value being
moved into the slot instead of copied (a move of `T` is taken to leave the
source cell as it is, as in the loop of `resize`). -/
def push_back_rv [Inhabited α] (this : Nat) (value : Arg α) (w : World α) : Outcome (World α) :=
  let grown :=
    if (w.objs this).size_ ≥ (w.objs this).capacity_ then
      resize this
        (if (w.objs this).capacity_ = 0 then 1 else (w.objs this).capacity_ * 2 % SIZE_MOD) w
    else .ok w
  match grown with
  | .ok w1 =>
    match value.read w1 with
    | none => .ub
    | some x =>
      match wr (w1.objs this).data_ (w1.objs this).size_ x w1 with
      | none => .ub
      | some w2 =>
        .ok (w2.setObj this
          { (w2.objs this) with size_ := ((w2.objs this).size_ + 1) % SIZE_MOD })
  | .threw e w1 => .threw e w1
  | .ub => .ub

/-- Member `void pop_back()`. -/
def pop_back [Inhabited α] (this : Nat) (w : World α) : Outcome (World α) :=
  if (w.objs this).size_ > 0 then
    let w1 := w.setObj this { (w.objs this) with size_ := (w.objs this).size_ - 1 }
    if (w1.objs this).capacity_ > 0 ∧ (w1.objs this).size_ = (w1.objs this).capacity_ / 4 then
      resize this
        (if (w1.objs this).capacity_ / 2 = 0 then 1 else (w1.objs this).capacity_ / 2) w1
    else .ok w1
  else .ok w

/-- Member `T& operator[](size_t index)`: no check at all. -/
def index (this : Nat) (i : Nat) (w : World α) : Ref :=
  { base := (w.objs this).data_, off := i }

/-- Member `const T& operator[](size_t index) const`. -/
def index_const (this : Nat) (i : Nat) (w : World α) : Ref :=
  { base := (w.objs this).data_, off := i }

/-- Member `T& at(size_t index)`. -/
def at_ (this : Nat) (i : Nat) (w : World α) : Except Exn Ref :=
  if i ≥ (w.objs this).size_ then .error .out_of_range
  else .ok { base := (w.objs this).data_, off := i }

/-- Member `const T& at(size_t index) const`. -/
def at_const (this : Nat) (i : Nat) (w : World α) : Except Exn Ref :=
  if i ≥ (w.objs this).size_ then .error .out_of_range
  else .ok { base := (w.objs this).data_, off := i }

/-- Member `size_t size() const`. -/
def size (this : Nat) (w : World α) : Nat := (w.objs this).size_

/-- Member `size_t capacity() const`. -/
def capacity (this : Nat) (w : World α) : Nat := (w.objs this).capacity_

/-- Member `bool empty() const`. -/
def empty (this : Nat) (w : World α) : Bool := (w.objs this).size_ == 0

/-- Read through a reference. -/
def load (r : Ref) (w : World α) : Option α := rd r.base r.off w

/-- Assign through a reference. -/
def store (r : Ref) (x : α) (w : World α) : Option (World α) := wr r.base r.off x w

/-- A state with nothing allocated, every object slot zeroed, every allocation
succeeding. -/
def World.init : World α :=
  { blocks := [], allocFails := [], objs := fun _ => ⟨none, 0, 0⟩, cout := "" }

/-- The first statement of `push_back` (both overloads):
`if (size_ >= capacity_) resize(capacity_ == 0 ? 1 : capacity_ * 2);`. -/
def push_back_grow [Inhabited α] (this : Nat) (w : World α) : Outcome (World α) :=
  if (w.objs this).size_ ≥ (w.objs this).capacity_ then
    resize this
      (if (w.objs this).capacity_ = 0 then 1 else (w.objs this).capacity_ * 2 % SIZE_MOD) w
  else .ok w

/-- The first `n` rounds of the element loop of `operator<<`,
`for (size_t i = 0; i < vec.size(); ++i) { os << vec[i]; if (i < vec.size() - 1) os << ", "; }`,
`render` being the stream insertion of `T` and `vec.size() - 1` being computed
in `size_t`; the result is the text of `os` after these rounds, `none` when an
element access is undefined. -/
def print_elems (render : α → String) (vec : Nat) (w : World α) : Nat → String → Option String
  | 0, os => some os
  | i + 1, os =>
    match print_elems render vec w i os with
    | none => none
    | some os1 =>
      match load (index_const vec i w) w with
      | none => none
      | some x =>
        if i < (size vec w + SIZE_MOD - 1) % SIZE_MOD then some (os1 ++ render x ++ ", ")
        else some (os1 ++ render x)

/-- Free function
`std::ostream& operator<<(std::ostream& os, const MyVector<T>& vec)`: the text
of `os` after the call, given its text before. -/
def operator_shl (render : α → String) (os : String) (vec : Nat) (w : World α) :
    Option String :=
  match print_elems render vec w (size vec w)
      (os ++ "Vector(size=" ++ toString (size vec w) ++ ", capacity=" ++
        toString (capacity vec w) ++ ") [") with
  | none => none
  | some os1 => some (os1 ++ "]")

/-! ## Specification vocabulary -/

/-- The cells a pointer gives access to: none for `nullptr` (treated as an empty
array), the cells of a live block, and nothing (`none`) for a pointer that is
dangling or was never allocated. -/
def bufAt (bs : List (Option (List α))) : Option Nat → Option (List α)
  | none => some []
  | some a => bs[a]?.join

/-- Every allocation request still scripted succeeds. -/
def NoFail (w : World α) : Prop := ∀ b ∈ w.allocFails, b = false

/-- Class invariant of the object `this`: `size_ ≤ capacity_`, both in the range
of `size_t`, and `data_` gives access to exactly `capacity_` cells. -/
def Valid (this : Nat) (w : World α) : Prop :=
  (w.objs this).size_ ≤ (w.objs this).capacity_ ∧
  (w.objs this).capacity_ < SIZE_MOD ∧
  (bufAt w.blocks (w.objs this).data_).map List.length = some (w.objs this).capacity_

/-- The logical contents of the object `this`: the first `size_` cells of its
buffer. -/
def elems (this : Nat) (w : World α) : List α :=
  ((bufAt w.blocks (w.objs this).data_).getD []).take (w.objs this).size_

/-- The objects `a` and `b` do not share a buffer. -/
def Separate (a b : Nat) (w : World α) : Prop :=
  (w.objs a).data_ = none ∨ (w.objs a).data_ ≠ (w.objs b).data_

/-- A property of the state in which a call ends, whether it returned or threw. -/
def Outcome.Holds {σ : Type} (P : σ → Prop) : Outcome σ → Prop
  | .ok s => P s
  | .threw _ s => P s
  | .ub => True

/-- The client loop `for (x : xs) v.push_back(x);` over a sequence `xs` held
outside the free store. -/
def push_all [Inhabited α] (this : Nat) : List α → World α → Outcome (World α)
  | [], w => .ok w
  | x :: xs, w =>
    match push_back this (.val x) w with
    | .ok w1 => push_all this xs w1
    | .threw e w1 => .threw e w1
    | .ub => .ub

/-- What a client can observe of object `a` is the same in `w2` as in `w`:
`size()`, `capacity()` and the element at every index below `size()`. -/
def SameView (a : Nat) (w w2 : World α) : Prop :=
  size a w2 = size a w ∧ capacity a w2 = capacity a w ∧
  ∀ i, i < size a w → load (index a i w2) w2 = load (index a i w) w

/-- Object `this` in `w1` is a value-wise duplicate of object `other` in `w`: the
same size and capacity, the same element at every index below the size, and
the source observably as it was. -/
def IsCopy (this other : Nat) (w w1 : World α) : Prop :=
  size this w1 = size other w ∧ capacity this w1 = capacity other w ∧
  size this w1 ≤ capacity this w1 ∧
  (∀ i, i < size other w →
    ∃ v, load (index other i w) w = some v ∧ load (index this i w1) w1 = some v) ∧
  w1.objs other = w.objs other ∧ SameView other w w1

/-- Object `this` in `w1` has taken over what object `other` held in `w`, and
`other` is left in the empty state. -/
def IsMoved (this other : Nat) (w w1 : World α) : Prop :=
  size this w1 = size other w ∧ capacity this w1 = capacity other w ∧
  (∀ i, i < size other w →
    ∃ v, load (index other i w) w = some v ∧ load (index this i w1) w1 = some v) ∧
  (w1.objs other).data_ = none ∧ size other w1 = 0 ∧ capacity other w1 = 0

/-- The invariant `size() <= capacity()` of object `this`. -/
def SizeLeCap (this : Nat) (w : World α) : Prop := size this w ≤ capacity this w

/-- The step from `w1` to `w2` touched nothing but object `b` and its buffer:
every other object keeps its fields, and every pointer other than `b`'s that
gave access to cells still gives access to the same cells. -/
def Frame (b : Nat) (w1 w2 : World α) : Prop :=
  (∀ k, k ≠ b → w2.objs k = w1.objs k) ∧
  ∀ q c, bufAt w1.blocks q = some c → (q = none ∨ q ≠ (w1.objs b).data_) →
    bufAt w2.blocks q = some c

/-- Object `b` in `w1` has a buffer of its own, and whichever way a mutation of
`b` ends (`push_back` of either overload with any argument, `pop_back`, an
assignment through `operator[]` or `at` at index `i` below the size), object
`a` is observed as it was in `w`; the mutations do return when nothing fails. -/
def MutationsLeave [Inhabited α] (a b : Nat) (w w1 : World α) (x : α) (i : Nat) : Prop :=
  (w1.objs b).data_ ≠ (w1.objs a).data_ ∧
  (∀ value : Arg α, (push_back b value w1).Holds (SameView a w)) ∧
  (∀ value : Arg α, (push_back_rv b value w1).Holds (SameView a w)) ∧
  (pop_back b w1).Holds (SameView a w) ∧
  (i < size b w1 → ∃ w2, store (index b i w1) x w1 = some w2 ∧ SameView a w w2) ∧
  (i < size b w1 →
    ∃ r w2, at_ b i w1 = .ok r ∧ store r x w1 = some w2 ∧ SameView a w w2) ∧
  (∃ w2, pop_back b w1 = .ok w2) ∧
  (capacity b w1 * 2 < SIZE_MOD → ∃ w2, push_back b (.val x) w1 = .ok w2)

/-- A state in which object `0` holds `1, 2, 3, 4, 5` in a block of 8 cells (the
object and the free store that five `push_back` calls on a default-constructed
object lead to) and object `1` is default-constructed. -/
def sample5 : World Nat :=
  { blocks := [none, none, none, some [1, 2, 3, 4, 5, 0, 0, 0]]
    allocFails := []
    objs := fun k => if k = 0 then ⟨some 3, 5, 8⟩ else ⟨none, 0, 0⟩
    cout := "" }

/-- A state in which object `0` holds the single element `7` in a block of 3
cells and object `1` holds `8, 9` in a full block of 2 cells. -/
def sampleSmall : World Nat :=
  { blocks := [some [7, 0, 0], some [8, 9]]
    allocFails := []
    objs := fun k => if k = 0 then ⟨some 0, 1, 3⟩ else if k = 1 then ⟨some 1, 2, 2⟩
      else ⟨none, 0, 0⟩
    cout := "" }

/-- The rendering of a container as the specification words it: the header
with size and capacity, the renderings of the elements in index order
separated by `", "` with no leading or trailing separator, and the closing
bracket. -/
def spec_rendering (render : α → String) (n cap : Nat) (es : List α) : String :=
  "Vector(size=" ++ toString n ++ ", capacity=" ++ toString cap ++ ") [" ++
    ", ".intercalate (es.map render) ++ "]"

/-- Number of iterations of the element loop
`for (size_t i = 0; i < size_; ++i) new_data[i] = std::move(data_[i]);` of
`resize(new_capacity)` started in state `w`: the loop is not reached when the
guard returns or the request for the new block throws, and otherwise runs once
for each index below `size_`. -/
def resize_transfers [Inhabited α] (this nc : Nat) (w : World α) : Nat :=
  if nc ≤ (w.objs this).size_ then 0
  else
    match new_array nc w with
    | (none, _) => 0
    | (some _, w1) => (w1.objs this).size_

/-- Number of element transfers of one `push_back` started in state `w`. -/
def push_back_transfers [Inhabited α] (this : Nat) (w : World α) : Nat :=
  if (w.objs this).size_ ≥ (w.objs this).capacity_ then
    resize_transfers this
      (if (w.objs this).capacity_ = 0 then 1 else (w.objs this).capacity_ * 2 % SIZE_MOD) w
  else 0

/-- Number of element transfers summed over the run of `push_all`. -/
def push_all_transfers [Inhabited α] (this : Nat) : List α → World α → Nat
  | [], _ => 0
  | x :: xs, w =>
    push_back_transfers this w +
      match push_back this (.val x) w with
      | .ok w1 => push_all_transfers this xs w1
      | _ => 0

/-- The values of `capacity()` after each call of the run of `push_all`. -/
def push_all_capacities [Inhabited α] (this : Nat) : List α → World α → List Nat
  | [], _ => []
  | x :: xs, w =>
    match push_back this (.val x) w with
    | .ok w1 => capacity this w1 :: push_all_capacities this xs w1
    | _ => []

/-- The shape of an object that has only been pushed to since it was empty with
capacity 0: either it still is, or its capacity is a power of two that is at
least its size and less than twice its size. -/
def Doubled (this : Nat) (w : World α) : Prop :=
  ((w.objs this).size_ = 0 ∧ (w.objs this).capacity_ = 0) ∨
  ∃ k, (w.objs this).capacity_ = 2 ^ k ∧ (w.objs this).size_ ≤ (w.objs this).capacity_ ∧
    (w.objs this).capacity_ < 2 * (w.objs this).size_

/-- The state `sampleSmall` with the next allocation request scripted to fail. -/
def sampleFail : World Nat := { sampleSmall with allocFails := [true] }

/-- The object and the free store of `sample5` after two `pop_back` calls on
object `0`. -/
def sample3 : World Nat :=
  { blocks := [none, none, none, some [1, 2, 3, 4, 5, 0, 0, 0]]
    allocFails := []
    objs := fun k => if k = 0 then ⟨some 3, 3, 8⟩ else ⟨none, 0, 0⟩
    cout := "" }

/-- A state in which object `0` is empty with capacity 4, as after
`MyVector(4)`. -/
def sampleReserved : World Nat :=
  { blocks := [some [0, 0, 0, 0]]
    allocFails := []
    objs := fun k => if k = 0 then ⟨some 0, 0, 4⟩ else ⟨none, 0, 0⟩
    cout := "" }

/-- The argument does not refer to a cell of the buffer of object `this`. -/
def Arg.Outside (this : Nat) (value : Arg α) (w : World α) : Prop :=
  match value with
  | .val _ => True
  | .cell r => r.base ≠ (w.objs this).data_

instance (w : World α) : Decidable (NoFail w) := by
  unfold NoFail; infer_instance

instance (this : Nat) (w : World α) : Decidable (Valid this w) := by
  unfold Valid; infer_instance

instance (a b : Nat) (w : World α) : Decidable (Separate a b w) := by
  unfold Separate; infer_instance

instance (this : Nat) (w : World α) : Decidable (SizeLeCap this w) := by
  unfold SizeLeCap; infer_instance

instance (this : Nat) (value : Arg α) (w : World α) : Decidable (Arg.Outside this value w) := by
  cases value <;> simp only [Arg.Outside] <;> infer_instance

/-! ## The free store -/

@[simp] theorem setObj_blocks (w : World α) (t : Nat) (v : MyVector) :
    (w.setObj t v).blocks = w.blocks := rfl

@[simp] theorem setObj_allocFails (w : World α) (t : Nat) (v : MyVector) :
    (w.setObj t v).allocFails = w.allocFails := rfl

@[simp] theorem setObj_objs_self (w : World α) (t : Nat) (v : MyVector) :
    (w.setObj t v).objs t = v := by simp [World.setObj]

theorem setObj_objs (w : World α) (t k : Nat) (v : MyVector) :
    (w.setObj t v).objs k = if k = t then v else w.objs k := rfl

@[simp] theorem print_blocks (w : World α) (s : String) : (w.print s).blocks = w.blocks := rfl

@[simp] theorem print_allocFails (w : World α) (s : String) :
    (w.print s).allocFails = w.allocFails := rfl

@[simp] theorem print_objs (w : World α) (s : String) : (w.print s).objs = w.objs := rfl

@[simp] theorem bufAt_null (bs : List (Option (List α))) : bufAt bs none = some [] := rfl

theorem bufAt_some_eq {bs : List (Option (List α))} {a : Nat} {b : List α} :
    bufAt bs (some a) = some b ↔ bs[a]? = some (some b) := by
  simp only [bufAt]
  rcases bs[a]? with _ | (_ | c) <;> simp [Option.join]

/-- A live pointer lies below the next fresh address. -/
theorem bufAt_lt {bs : List (Option (List α))} {a : Nat} {b : List α}
    (h : bufAt bs (some a) = some b) : a < bs.length := by
  rw [bufAt_some_eq] at h
  by_contra hc
  rw [List.getElem?_eq_none (by omega)] at h
  cases h

/-- The fresh address is not live. -/
theorem bufAt_fresh (bs : List (Option (List α))) : bufAt bs (some bs.length) = none := by
  cases h : bufAt bs (some bs.length) with
  | none => rfl
  | some b => exact absurd (bufAt_lt h) (by omega)

theorem rd_eq (p : Option Nat) (i : Nat) (w : World α) :
    rd p i w = (bufAt w.blocks p).bind (fun b => b[i]?) := by
  cases p with
  | none => simp [rd]
  | some a =>
    simp only [rd, bufAt]
    rcases w.blocks[a]? with _ | (_ | b) <;> simp

theorem bufAt_append_of_some {bs : List (Option (List α))} {p : Option Nat} {b : List α}
    (h : bufAt bs p = some b) (x : Option (List α)) : bufAt (bs ++ [x]) p = some b := by
  cases p with
  | none => simpa using h
  | some a =>
    have hlt := bufAt_lt h
    rw [bufAt_some_eq] at h ⊢
    rw [List.getElem?_append_left hlt]; exact h

theorem bufAt_append_fresh (bs : List (Option (List α))) (b : List α) :
    bufAt (bs ++ [some b]) (some bs.length) = some b := by
  rw [bufAt_some_eq]; simp

theorem bufAt_set_ne (bs : List (Option (List α))) {a : Nat} {q : Option Nat}
    (x : Option (List α)) (h : q ≠ some a) : bufAt (bs.set a x) q = bufAt bs q := by
  cases q with
  | none => rfl
  | some c =>
    have hne : a ≠ c := fun e => h (by rw [e])
    simp only [bufAt]
    rw [List.getElem?_set_ne hne]

theorem bufAt_set_self {bs : List (Option (List α))} {a : Nat} {b : List α}
    (h : bufAt bs (some a) = some b) (b1 : List α) :
    bufAt (bs.set a (some b1)) (some a) = some b1 := by
  rw [bufAt_some_eq]
  rw [List.getElem?_set_self (bufAt_lt h)]

theorem bufAt_set_dead {bs : List (Option (List α))} {a : Nat} :
    bufAt (bs.set a none) (some a) = none := by
  simp only [bufAt]
  by_cases h : a < bs.length
  · rw [List.getElem?_set_self h]; rfl
  · rw [List.getElem?_eq_none (by simpa using h)]; rfl

theorem new_array_ok [Inhabited α] (n : Nat) (w : World α) (h : NoFail w) :
    ∃ w1, new_array n w = (some w.blocks.length, w1) ∧ NoFail w1 ∧ w1.objs = w.objs ∧
      w1.blocks = w.blocks ++ [some (List.replicate n default)] := by
  unfold NoFail at h
  unfold new_array
  rcases hf : w.allocFails with _ | ⟨b, rest⟩
  · refine ⟨_, rfl, ?_, rfl, rfl⟩
    intro b hb
    rw [hf] at h; exact h b hb
  · have hb : b = false := h b (by simp [hf])
    subst hb
    refine ⟨_, rfl, ?_, rfl, rfl⟩
    intro c hc
    exact h c (by rw [hf]; exact List.mem_cons_of_mem _ hc)

theorem new_array_fail [Inhabited α] (n : Nat) (w : World α) (rest : List Bool)
    (h : w.allocFails = true :: rest) :
    new_array n w = (none, { w with allocFails := rest }) := by
  unfold new_array
  rw [h]

/-- The two ways a request can end. -/
theorem new_array_cases [Inhabited α] (n : Nat) (w : World α) :
    (∃ rest, w.allocFails = true :: rest ∧
      new_array n w = (none, { w with allocFails := rest })) ∨
    (∃ w1, new_array n w = (some w.blocks.length, w1) ∧ (NoFail w → NoFail w1) ∧
      w1.objs = w.objs ∧ w1.blocks = w.blocks ++ [some (List.replicate n default)]) := by
  rcases hf : w.allocFails with _ | ⟨b, rest⟩
  · right
    unfold new_array
    rw [hf]
    refine ⟨_, rfl, ?_, rfl, rfl⟩
    intro _ c hc
    cases hc
  · cases b with
    | true => left; exact ⟨rest, rfl, new_array_fail n w rest hf⟩
    | false =>
      right
      unfold new_array
      rw [hf]
      refine ⟨_, rfl, ?_, rfl, rfl⟩
      intro h c hc
      exact h c (by rw [hf]; exact List.mem_cons_of_mem _ hc)

theorem not_noFail_of_head {w : World α} {rest : List Bool}
    (h : w.allocFails = true :: rest) : ¬ NoFail w := by
  intro hn
  have := hn true (by rw [h]; exact List.mem_cons_self _ _)
  cases this

theorem delete_array_ok {p : Option Nat} {w : World α} {b : List α}
    (h : bufAt w.blocks p = some b) :
    ∃ w1, delete_array p w = some w1 ∧ w1.allocFails = w.allocFails ∧ w1.objs = w.objs ∧
      w1.cout = w.cout ∧
      (∀ a, p = some a → bufAt w1.blocks p = none) ∧
      ∀ q, q = none ∨ q ≠ p → bufAt w1.blocks q = bufAt w.blocks q := by
  cases p with
  | none =>
    refine ⟨w, rfl, rfl, rfl, rfl, ?_, fun _ _ => rfl⟩
    intro a ha; cases ha
  | some a =>
    rw [bufAt_some_eq] at h
    refine ⟨{ w with blocks := w.blocks.set a none }, ?_, rfl, rfl, rfl, ?_, ?_⟩
    · simp [delete_array, h]
    · intro _ _; exact bufAt_set_dead
    · intro q hq
      rcases hq with hq | hq
      · subst hq; rfl
      · exact bufAt_set_ne _ _ hq

theorem wr_ok {p : Option Nat} {w : World α} {b : List α} (i : Nat) (x : α)
    (h : bufAt w.blocks p = some b) (hi : i < b.length) :
    ∃ w1, wr p i x w = some w1 ∧ w1.allocFails = w.allocFails ∧ w1.objs = w.objs ∧
      w1.cout = w.cout ∧
      bufAt w1.blocks p = some (b.set i x) ∧
      ∀ q, q ≠ p → bufAt w1.blocks q = bufAt w.blocks q := by
  cases p with
  | none =>
    simp at h; subst h; simp at hi
  | some a =>
    have h1 := bufAt_some_eq.mp h
    refine ⟨{ w with blocks := w.blocks.set a (some (b.set i x)) }, ?_, rfl, rfl, rfl, ?_, ?_⟩
    · simp [wr, h1, hi]
    · exact bufAt_set_self h _
    · intro q hq
      exact bufAt_set_ne _ _ hq

theorem take_drop_set_step (sb db : List α) (n : Nat) (hs : n < sb.length)
    (hd : n < db.length) :
    (sb.take n ++ db.drop n).set n sb[n] = sb.take (n + 1) ++ db.drop (n + 1) := by
  apply List.ext_getElem?
  intro i
  rw [List.getElem?_set]
  have hl : (sb.take n).length = n := by simp; omega
  have hl1 : (sb.take (n + 1)).length = n + 1 := by simp; omega
  by_cases h1 : i < n
  · rw [if_neg (by omega), List.getElem?_append_left (by omega),
      List.getElem?_append_left (by omega), List.getElem?_take_of_lt h1,
      List.getElem?_take_of_lt (by omega)]
  · by_cases h2 : i = n
    · subst h2
      rw [if_pos rfl, if_pos (by simp; omega), List.getElem?_append_left (by omega),
        List.getElem?_take_of_lt (by omega), List.getElem?_eq_getElem hs]
    · rw [if_neg (by omega), List.getElem?_append_right (by omega),
        List.getElem?_append_right (by omega), hl, hl1, List.getElem?_drop, List.getElem?_drop]
      congr 1
      omega

theorem copy_elems_ok {src dst : Option Nat} {sb db : List α} (hne : src ≠ dst) :
    ∀ (n : Nat) (w : World α), bufAt w.blocks src = some sb → bufAt w.blocks dst = some db →
      n ≤ sb.length → n ≤ db.length →
      ∃ w1, copy_elems src dst n w = some w1 ∧ w1.allocFails = w.allocFails ∧
        w1.objs = w.objs ∧ w1.cout = w.cout ∧
        bufAt w1.blocks dst = some (sb.take n ++ db.drop n) ∧
        ∀ q, q ≠ dst → bufAt w1.blocks q = bufAt w.blocks q := by
  intro n
  induction n with
  | zero =>
    intro w _ hd _ _
    exact ⟨w, rfl, rfl, rfl, rfl, by simpa using hd, fun _ _ => rfl⟩
  | succ n ih =>
    intro w hs hd hns hnd
    obtain ⟨w1, hc, ha, ho, hco, hb, hfr⟩ := ih w hs hd (by omega) (by omega)
    have hs1 : bufAt w1.blocks src = some sb := by rw [hfr src hne]; exact hs
    have hrd : rd src n w1 = some sb[n] := by
      rw [rd_eq, hs1]; simp [List.getElem?_eq_getElem (show n < sb.length by omega)]
    have hlen : n < (sb.take n ++ db.drop n).length := by simp; omega
    obtain ⟨w2, hw, ha2, ho2, hco2, hb2, hfr2⟩ := wr_ok n sb[n] hb hlen
    refine ⟨w2, ?_, by rw [ha2, ha], by rw [ho2, ho], by rw [hco2, hco], ?_, ?_⟩
    · simp only [copy_elems, hc, hrd, hw]
    · rw [hb2, take_drop_set_step sb db n (by omega) (by omega)]
    · intro q hq
      rw [hfr2 q hq, hfr q hq]

/-! ## `resize` -/

theorem resize_noop [Inhabited α] (this nc : Nat) (w : World α)
    (h : nc ≤ (w.objs this).size_) : resize this nc w = .ok w := by
  unfold resize
  rw [if_pos h]

/-- A reallocation that is not cancelled by the guard.  Either the request for
the new block fails and `std::bad_alloc` leaves `resize` with the object and
the free store as they were, or the object ends up with a fresh block holding
its first `size_` elements, the old block is released, and every other
pointer sees what it saw before. -/
theorem resize_cases [Inhabited α] (this nc : Nat) (w : World α) {b : List α}
    (hb : bufAt w.blocks (w.objs this).data_ = some b)
    (hs : (w.objs this).size_ ≤ b.length) (hnc : (w.objs this).size_ < nc) :
    (∃ w1, resize this nc w = .threw .bad_alloc w1 ∧ ¬ NoFail w ∧ w1.objs = w.objs ∧
      w1.blocks = w.blocks) ∨
    (∃ w1, resize this nc w = .ok w1 ∧ (NoFail w → NoFail w1) ∧
      w1.objs this = ⟨some w.blocks.length, (w.objs this).size_, nc⟩ ∧
      (∀ k, k ≠ this → w1.objs k = w.objs k) ∧
      bufAt w1.blocks (some w.blocks.length) =
        some (b.take (w.objs this).size_ ++
          (List.replicate nc default).drop (w.objs this).size_) ∧
      (∀ a, (w.objs this).data_ = some a → bufAt w1.blocks (some a) = none) ∧
      ∀ q c, bufAt w.blocks q = some c → (q = none ∨ q ≠ (w.objs this).data_) →
        bufAt w1.blocks q = some c) := by
  rcases new_array_cases nc
    (w.print ("Resizing from " ++ toString (w.objs this).capacity_ ++ " to " ++ toString nc
        ++ "\n")) with ⟨rest, hf, hnew⟩ | ⟨w1, hnew, hnf1, ho1, hbl1⟩
  · left
    refine ⟨{ (w.print ("Resizing from " ++ toString (w.objs this).capacity_ ++ " to " ++
      toString nc ++ "\n")) with allocFails := rest }, ?_,
      not_noFail_of_head (by simpa using hf), rfl, rfl⟩
    unfold resize
    rw [if_neg (by omega)]
    simp only [hnew]
  right
  simp only [print_blocks, print_objs] at hnew ho1 hbl1
  have hfresh : (w.objs this).data_ ≠ some w.blocks.length := by
    intro e
    rw [e, bufAt_fresh] at hb
    cases hb
  have hsrc : bufAt w1.blocks (w1.objs this).data_ = some b := by
    rw [ho1, hbl1]; exact bufAt_append_of_some hb _
  have hdst : bufAt w1.blocks (some w.blocks.length) = some (List.replicate nc default) := by
    rw [hbl1]; exact bufAt_append_fresh _ _
  obtain ⟨w2, hcp, ha2, ho2, -, hb2, hfr2⟩ := copy_elems_ok (by rw [ho1]; exact hfresh)
    (w1.objs this).size_ w1 hsrc hdst (by rw [ho1]; exact hs) (by rw [ho1]; simp; omega)
  have hsrc2 : bufAt w2.blocks (w2.objs this).data_ = some b := by
    rw [ho2, hfr2 _ (by rw [ho1]; exact hfresh)]; exact hsrc
  obtain ⟨w3, hdel, ha3, ho3, -, hdead, hfr3⟩ := delete_array_ok hsrc2
  refine ⟨((w3.setObj this { (w3.objs this) with data_ := some w.blocks.length }).setObj this
    { ((w3.setObj this { (w3.objs this) with data_ := some w.blocks.length }).objs this) with
      capacity_ := nc }), ?_, ?_, ?_, ?_, ?_, ?_, ?_⟩
  · unfold resize
    rw [if_neg (by omega)]
    simp only [hnew, hcp, hdel]
  · intro hnf
    unfold NoFail
    simp only [setObj_allocFails, ha3, ha2]
    exact hnf1 hnf
  · simp [ho3, ho2, ho1]
  · intro k hk
    simp [setObj_objs, hk, ho3, ho2, ho1]
  · simp only [setObj_blocks]
    rw [hfr3 _ (Or.inr (by rw [ho2, ho1]; exact fun e => hfresh e.symm)), hb2, ho1]
  · intro a ha
    simp only [setObj_blocks]
    have := hdead a (by rw [ho2, ho1]; exact ha)
    rw [ho2, ho1, ha] at this
    exact this
  · intro q c hq hqn
    simp only [setObj_blocks]
    have hq1 : q ≠ some w.blocks.length := by
      intro e; rw [e, bufAt_fresh] at hq; cases hq
    rw [hfr3 q (by rw [ho2, ho1]; exact hqn), hfr2 q hq1, hbl1]
    exact bufAt_append_of_some hq _

/-- The reallocation when no request fails. -/
theorem resize_ok [Inhabited α] (this nc : Nat) (w : World α) {b : List α}
    (hnf : NoFail w) (hb : bufAt w.blocks (w.objs this).data_ = some b)
    (hs : (w.objs this).size_ ≤ b.length) (hnc : (w.objs this).size_ < nc) :
    ∃ w1, resize this nc w = .ok w1 ∧ NoFail w1 ∧
      w1.objs this = ⟨some w.blocks.length, (w.objs this).size_, nc⟩ ∧
      (∀ k, k ≠ this → w1.objs k = w.objs k) ∧
      bufAt w1.blocks (some w.blocks.length) =
        some (b.take (w.objs this).size_ ++
          (List.replicate nc default).drop (w.objs this).size_) ∧
      (∀ a, (w.objs this).data_ = some a → bufAt w1.blocks (some a) = none) ∧
      ∀ q c, bufAt w.blocks q = some c → (q = none ∨ q ≠ (w.objs this).data_) →
        bufAt w1.blocks q = some c := by
  rcases resize_cases this nc w hb hs hnc with ⟨_, _, hno, _⟩ | ⟨w1, h1, h2, h3⟩
  · exact absurd hnf hno
  · exact ⟨w1, h1, h2 hnf, h3⟩

/-! ## Reading the contents -/

theorem valid_buf {this : Nat} {w : World α} (hv : Valid this w) :
    ∃ b, bufAt w.blocks (w.objs this).data_ = some b ∧ b.length = (w.objs this).capacity_ := by
  obtain ⟨_, _, h⟩ := hv
  rcases hb : bufAt w.blocks (w.objs this).data_ with _ | b
  · rw [hb] at h; cases h
  · rw [hb] at h
    exact ⟨b, rfl, by simpa using h⟩

theorem elems_length {this : Nat} {w : World α} (hv : Valid this w) :
    (elems this w).length = (w.objs this).size_ := by
  obtain ⟨b, hb, hl⟩ := valid_buf hv
  have hle := hv.1
  simp only [elems, hb, Option.getD_some, List.length_take]
  omega

/-- What `operator[]` designates at an index below `size_` is the element of
the logical contents at that index. -/
theorem load_index {this : Nat} {w : World α} (hv : Valid this w) (i : Nat)
    (hi : i < (w.objs this).size_) : load (index this i w) w = (elems this w)[i]? := by
  obtain ⟨b, hb, hl⟩ := valid_buf hv
  simp only [load, index, rd_eq, hb, Option.some_bind, elems, Option.getD_some]
  rw [List.getElem?_take_of_lt hi]

theorem take_succ_set (b : List α) (n : Nat) (x : α) (h : n < b.length) :
    (b.set n x).take (n + 1) = b.take n ++ [x] := by
  apply List.ext_getElem?
  intro i
  have hl : (b.take n).length = n := by simp; omega
  by_cases h1 : i < n
  · rw [List.getElem?_take_of_lt (by omega), List.getElem?_set_ne (by omega),
      List.getElem?_append_left (by omega), List.getElem?_take_of_lt h1]
  · by_cases h2 : i = n
    · subst h2
      rw [List.getElem?_take_of_lt (by omega), List.getElem?_set_self h,
        List.getElem?_append_right (by omega), hl]
      simp
    · rw [List.getElem?_eq_none (by simp; omega), List.getElem?_eq_none (by simp; omega)]

theorem take_append_take (b r : List α) (n : Nat) (h : n ≤ b.length) :
    (b.take n ++ r).take n = b.take n := by
  have hl : (b.take n).length = n := by simp; omega
  rw [List.take_append_eq_append_take, hl]
  simp

/-! ## `push_back` and `pop_back` -/

/-- Effect of one `push_back` on a valid object when the doubled capacity is
representable: either the growth fails to allocate and `std::bad_alloc`
leaves the call with the object and the free store as they were, or the call
returns with the value appended. -/
theorem push_back_cases [Inhabited α] (this : Nat) (x : α) (w : World α)
    (hv : Valid this w)
    (hov : (w.objs this).size_ = (w.objs this).capacity_ →
      (w.objs this).capacity_ * 2 < SIZE_MOD) :
    (∃ w1, push_back this (.val x) w = .threw .bad_alloc w1 ∧ ¬ NoFail w ∧
      (w.objs this).size_ = (w.objs this).capacity_ ∧ w1.objs = w.objs ∧
      w1.blocks = w.blocks) ∨
    ∃ w1, push_back this (.val x) w = .ok w1 ∧ (NoFail w → NoFail w1) ∧ Valid this w1 ∧
      (w1.objs this).size_ = (w.objs this).size_ + 1 ∧
      (w1.objs this).capacity_ =
        (if (w.objs this).size_ = (w.objs this).capacity_ then
          (if (w.objs this).capacity_ = 0 then 1 else (w.objs this).capacity_ * 2)
         else (w.objs this).capacity_) ∧
      (w1.objs this).data_ =
        (if (w.objs this).size_ = (w.objs this).capacity_ then some w.blocks.length
         else (w.objs this).data_) ∧
      elems this w1 = elems this w ++ [x] ∧
      (∀ k, k ≠ this → w1.objs k = w.objs k) ∧
      ∀ q c, bufAt w.blocks q = some c → (q = none ∨ q ≠ (w.objs this).data_) →
        bufAt w1.blocks q = some c := by
  obtain ⟨b, hb, hl⟩ := valid_buf hv
  obtain ⟨hle, hcap, -⟩ := hv
  by_cases hfull : (w.objs this).size_ = (w.objs this).capacity_
  · obtain ⟨nc, hncdef⟩ : ∃ nc, nc =
        (if (w.objs this).capacity_ = 0 then 1 else (w.objs this).capacity_ * 2 % SIZE_MOD) :=
      ⟨_, rfl⟩
    have hnceq : nc = (if (w.objs this).capacity_ = 0 then 1
        else (w.objs this).capacity_ * 2) := by
      rw [hncdef]
      split
      · rfl
      · rw [Nat.mod_eq_of_lt (hov hfull)]
    have hnc : (w.objs this).size_ < nc := by
      rw [hnceq]; split <;> omega
    have hncM : nc < SIZE_MOD := by
      rw [hnceq]; split
      · unfold SIZE_MOD; omega
      · exact hov hfull
    rcases resize_cases this nc w hb (by omega) hnc with
      ⟨w1, hrs, hno, ho1, hbl1⟩ | ⟨w1, hrs, hnf1, ho1, hoth1, hb1, -, hfr1⟩
    · left
      refine ⟨w1, ?_, hno, hfull, ho1, hbl1⟩
      unfold push_back
      simp only [ge_iff_le, hfull, le_refl, if_true, ← hncdef, hrs]
    right
    have hd1 : (w1.objs this).data_ = some w.blocks.length := by rw [ho1]
    have hs1 : (w1.objs this).size_ = (w.objs this).size_ := by rw [ho1]
    have hc1 : (w1.objs this).capacity_ = nc := by rw [ho1]
    obtain ⟨b1, hb1def⟩ : ∃ b1, b1 = b.take (w.objs this).size_ ++
        (List.replicate nc default).drop (w.objs this).size_ := ⟨_, rfl⟩
    rw [← hb1def] at hb1
    have hlen1 : b1.length = nc := by
      rw [hb1def]
      simp only [List.length_append, List.length_take, List.length_drop, List.length_replicate]
      omega
    obtain ⟨w2, hw, ha2, ho2, -, hb2, hfr2⟩ := wr_ok (w.objs this).size_ x hb1
      (by rw [hlen1]; exact hnc)
    have hsz : ((w.objs this).size_ + 1) % SIZE_MOD = (w.objs this).size_ + 1 :=
      Nat.mod_eq_of_lt (by omega)
    refine ⟨w2.setObj this { (w2.objs this) with size_ := ((w2.objs this).size_ + 1) % SIZE_MOD },
      ?_, ?_, ?_, ?_, ?_, ?_, ?_, ?_, ?_⟩
    · unfold push_back
      simp only [ge_iff_le, hfull, le_refl, if_true, ← hncdef, hrs, hd1, hs1, Arg.read]
      rw [← hfull, hw]
    · intro hnf; unfold NoFail; simp only [setObj_allocFails, ha2]; exact hnf1 hnf
    · refine ⟨?_, ?_, ?_⟩
      · simp only [setObj_objs_self, ho2, hs1, hc1, hsz]; omega
      · simp only [setObj_objs_self, ho2, hc1]; exact hncM
      · simp only [setObj_objs_self, setObj_blocks, ho2, hd1, hc1, hb2, Option.map_some',
          List.length_set, hlen1]
    · simp only [setObj_objs_self, ho2, hs1, hsz]
    · simp only [setObj_objs_self, ho2, hc1, if_pos hfull, hnceq]
    · simp only [setObj_objs_self, ho2, hd1, if_pos hfull]
    · simp only [elems, setObj_objs_self, setObj_blocks, hb2, hb, Option.getD_some, ho2, hd1,
        hs1, hsz]
      rw [take_succ_set _ _ _ (by rw [hlen1]; exact hnc), hb1def,
        take_append_take _ _ _ (by omega)]
    · intro k hk
      simp only [setObj_objs, if_neg hk, ho2]
      exact hoth1 k hk
    · intro q c hq hqn
      simp only [setObj_blocks]
      have hq1 : q ≠ some w.blocks.length := by
        intro e; rw [e, bufAt_fresh] at hq; cases hq
      rw [hfr2 q hq1]
      exact hfr1 q c hq hqn
  · right
    have hlt : (w.objs this).size_ < (w.objs this).capacity_ := by omega
    obtain ⟨w2, hw, ha2, ho2, -, hb2, hfr2⟩ := wr_ok (w.objs this).size_ x hb (by omega)
    have hsz : ((w.objs this).size_ + 1) % SIZE_MOD = (w.objs this).size_ + 1 :=
      Nat.mod_eq_of_lt (by omega)
    refine ⟨w2.setObj this { (w2.objs this) with size_ := ((w2.objs this).size_ + 1) % SIZE_MOD },
      ?_, ?_, ?_, ?_, ?_, ?_, ?_, ?_, ?_⟩
    · unfold push_back
      simp only [ge_iff_le, Nat.not_le.mpr hlt, if_false, Arg.read, hw]
    · intro hnf; unfold NoFail; simp only [setObj_allocFails, ha2]; exact hnf
    · refine ⟨?_, ?_, ?_⟩
      · simp only [setObj_objs_self, ho2, hsz]; omega
      · simp only [setObj_objs_self, ho2]; exact hcap
      · simp only [setObj_objs_self, setObj_blocks, ho2]
        rw [hb2]
        simp only [Option.map_some', List.length_set, hl]
    · simp only [setObj_objs_self, ho2, hsz]
    · simp only [setObj_objs_self, ho2, if_neg hfull]
    · simp only [setObj_objs_self, ho2, if_neg hfull]
    · simp only [elems, setObj_objs_self, setObj_blocks, hb2, hb, Option.getD_some, ho2, hsz]
      rw [take_succ_set _ _ _ (by omega)]
    · intro k hk
      simp only [setObj_objs, if_neg hk, ho2]
    · intro q c hq hqn
      simp only [setObj_blocks]
      rcases hqn with hqn | hqn
      · subst hqn; simpa using hq
      · rw [hfr2 q hqn]; exact hq

/-- Effect of one `pop_back` on a valid, non-empty object: either the shrink
fails to allocate and `std::bad_alloc` leaves the call after `size_` has been
decremented, or the call returns with the last element removed. -/
theorem pop_back_cases [Inhabited α] (this : Nat) (w : World α)
    (hv : Valid this w) (hpos : 0 < (w.objs this).size_) :
    (∃ w1, pop_back this w = .threw .bad_alloc w1 ∧ ¬ NoFail w ∧
      (w.objs this).size_ - 1 = (w.objs this).capacity_ / 4 ∧
      w1.objs this = { (w.objs this) with size_ := (w.objs this).size_ - 1 } ∧
      (∀ k, k ≠ this → w1.objs k = w.objs k) ∧ w1.blocks = w.blocks) ∨
    ∃ w1, pop_back this w = .ok w1 ∧ (NoFail w → NoFail w1) ∧ Valid this w1 ∧
      (w1.objs this).size_ = (w.objs this).size_ - 1 ∧
      (w1.objs this).capacity_ =
        (if (w.objs this).size_ - 1 = (w.objs this).capacity_ / 4 then
          max 1 ((w.objs this).capacity_ / 2)
         else (w.objs this).capacity_) ∧
      (w1.objs this).data_ =
        (if (w.objs this).size_ - 1 = (w.objs this).capacity_ / 4 then some w.blocks.length
         else (w.objs this).data_) ∧
      elems this w1 = (elems this w).take ((w.objs this).size_ - 1) ∧
      (∀ k, k ≠ this → w1.objs k = w.objs k) ∧
      ∀ q c, bufAt w.blocks q = some c → (q = none ∨ q ≠ (w.objs this).data_) →
        bufAt w1.blocks q = some c := by
  obtain ⟨b, hb, hl⟩ := valid_buf hv
  obtain ⟨hle, hcap, -⟩ := hv
  obtain ⟨w0, hw0⟩ : ∃ w0, w0 =
      w.setObj this { (w.objs this) with size_ := (w.objs this).size_ - 1 } := ⟨_, rfl⟩
  have hd0 : (w0.objs this).data_ = (w.objs this).data_ := by rw [hw0]; simp
  have hs0 : (w0.objs this).size_ = (w.objs this).size_ - 1 := by rw [hw0]; simp
  have hc0 : (w0.objs this).capacity_ = (w.objs this).capacity_ := by rw [hw0]; simp
  have hbl0 : w0.blocks = w.blocks := by rw [hw0]; rfl
  have hnf0 : NoFail w → NoFail w0 := by rw [hw0]; exact fun h => h
  have hoth0 : ∀ k, k ≠ this → w0.objs k = w.objs k := by
    intro k hk; rw [hw0]; simp [setObj_objs, hk]
  have hel : elems this w = b.take (w.objs this).size_ := by
    simp only [elems, hb, Option.getD_some]
  by_cases htr : (w.objs this).size_ - 1 = (w.objs this).capacity_ / 4
  · obtain ⟨nc, hncdef⟩ : ∃ nc, nc =
        (if (w.objs this).capacity_ / 2 = 0 then 1 else (w.objs this).capacity_ / 2) :=
      ⟨_, rfl⟩
    have hnceq : nc = max 1 ((w.objs this).capacity_ / 2) := by
      rw [hncdef]; split <;> omega
    have hnc : (w0.objs this).size_ < nc := by rw [hs0, hnceq]; omega
    have hncM : nc < SIZE_MOD := by
      rw [hnceq]; unfold SIZE_MOD at *; omega
    rcases resize_cases this nc w0 (by rw [hd0, hbl0]; exact hb) (by rw [hs0]; omega) hnc with
      ⟨w1, hrs, hno, ho1, hbl1⟩ | ⟨w1, hrs, hnf1, ho1, hoth1, hb1, -, hfr1⟩
    · left
      refine ⟨w1, ?_, fun h => hno (hnf0 h), htr, ?_, ?_, ?_⟩
      · unfold pop_back
        rw [if_pos hpos]
        simp only [← hw0, hc0, hs0]
        rw [if_pos ⟨by omega, htr⟩, ← hncdef, hrs]
      · rw [ho1, hw0]; simp
      · intro k hk; rw [ho1, hoth0 k hk]
      · rw [hbl1, hbl0]
    right
    rw [hs0, hbl0] at ho1 hb1
    refine ⟨w1, ?_, fun h => hnf1 (hnf0 h), ?_, ?_, ?_, ?_, ?_, ?_, ?_⟩
    · unfold pop_back
      rw [if_pos hpos]
      simp only [← hw0, hc0, hs0]
      rw [if_pos ⟨by omega, htr⟩, ← hncdef, hrs]
    · refine ⟨?_, ?_, ?_⟩
      · rw [ho1]; simp only; rw [hs0] at hnc; omega
      · rw [ho1]; exact hncM
      · rw [ho1]; simp only
        rw [hb1]
        simp only [Option.map_some', List.length_append, List.length_take, List.length_drop,
          List.length_replicate]
        rw [hs0] at hnc
        congr 1; omega
    · rw [ho1]
    · rw [ho1, if_pos htr, hnceq]
    · rw [ho1, if_pos htr]
    · rw [hel]
      simp only [elems, ho1, hb1, Option.getD_some]
      rw [take_append_take _ _ _ (by omega), List.take_take]
      congr 1; omega
    · intro k hk; rw [hoth1 k hk, hoth0 k hk]
    · intro q c hq hqn
      exact hfr1 q c (by rw [hbl0]; exact hq) (by rw [hd0]; exact hqn)
  · right
    refine ⟨w0, ?_, hnf0, ?_, hs0, ?_, ?_, ?_, hoth0, ?_⟩
    · unfold pop_back
      rw [if_pos hpos]
      simp only [← hw0, hc0, hs0]
      rw [if_neg (fun h => htr h.2)]
    · refine ⟨by rw [hs0, hc0]; omega, by rw [hc0]; exact hcap, ?_⟩
      rw [hd0, hbl0, hc0, hb]; simp [hl]
    · rw [hc0, if_neg htr]
    · rw [hd0, if_neg htr]
    · simp only [elems, hd0, hbl0, hs0, hb, Option.getD_some, List.take_take]
      congr 1; omega
    · intro q c hq _
      rw [hbl0]; exact hq

/-- Effect of one `push_back` when no allocation fails. -/
theorem push_back_ok [Inhabited α] (this : Nat) (x : α) (w : World α)
    (hv : Valid this w) (hnf : NoFail w)
    (hov : (w.objs this).size_ = (w.objs this).capacity_ →
      (w.objs this).capacity_ * 2 < SIZE_MOD) :
    ∃ w1, push_back this (.val x) w = .ok w1 ∧ NoFail w1 ∧ Valid this w1 ∧
      (w1.objs this).size_ = (w.objs this).size_ + 1 ∧
      (w1.objs this).capacity_ =
        (if (w.objs this).size_ = (w.objs this).capacity_ then
          (if (w.objs this).capacity_ = 0 then 1 else (w.objs this).capacity_ * 2)
         else (w.objs this).capacity_) ∧
      (w1.objs this).data_ =
        (if (w.objs this).size_ = (w.objs this).capacity_ then some w.blocks.length
         else (w.objs this).data_) ∧
      elems this w1 = elems this w ++ [x] ∧
      (∀ k, k ≠ this → w1.objs k = w.objs k) ∧
      ∀ q c, bufAt w.blocks q = some c → (q = none ∨ q ≠ (w.objs this).data_) →
        bufAt w1.blocks q = some c := by
  rcases push_back_cases this x w hv hov with ⟨_, _, hno, _⟩ | ⟨w1, h1, h2, h3⟩
  · exact absurd hnf hno
  · exact ⟨w1, h1, h2 hnf, h3⟩

/-- Effect of one `pop_back` when no allocation fails. -/
theorem pop_back_ok [Inhabited α] (this : Nat) (w : World α)
    (hv : Valid this w) (hnf : NoFail w) (hpos : 0 < (w.objs this).size_) :
    ∃ w1, pop_back this w = .ok w1 ∧ NoFail w1 ∧ Valid this w1 ∧
      (w1.objs this).size_ = (w.objs this).size_ - 1 ∧
      (w1.objs this).capacity_ =
        (if (w.objs this).size_ - 1 = (w.objs this).capacity_ / 4 then
          max 1 ((w.objs this).capacity_ / 2)
         else (w.objs this).capacity_) ∧
      (w1.objs this).data_ =
        (if (w.objs this).size_ - 1 = (w.objs this).capacity_ / 4 then some w.blocks.length
         else (w.objs this).data_) ∧
      elems this w1 = (elems this w).take ((w.objs this).size_ - 1) ∧
      (∀ k, k ≠ this → w1.objs k = w.objs k) ∧
      ∀ q c, bufAt w.blocks q = some c → (q = none ∨ q ≠ (w.objs this).data_) →
        bufAt w1.blocks q = some c := by
  rcases pop_back_cases this w hv hpos with ⟨_, _, hno, _⟩ | ⟨w1, h1, h2, h3⟩
  · exact absurd hnf hno
  · exact ⟨w1, h1, h2 hnf, h3⟩

/-! ## Copy and move -/

/-- The copy constructor on a valid source when no allocation fails. -/
theorem ctor_copy_ok [Inhabited α] (this other : Nat) (w : World α) (hne : this ≠ other)
    (hv : Valid other w) (hnf : NoFail w) :
    ∃ w1, ctor_copy this other w = .ok w1 ∧ NoFail w1 ∧ Valid this w1 ∧
      w1.objs this =
        ⟨some w.blocks.length, (w.objs other).size_, (w.objs other).capacity_⟩ ∧
      (∀ k, k ≠ this → w1.objs k = w.objs k) ∧
      elems this w1 = elems other w ∧
      ∀ q c, bufAt w.blocks q = some c → bufAt w1.blocks q = some c := by
  obtain ⟨b, hb, hl⟩ := valid_buf hv
  obtain ⟨hle, hcap, -⟩ := hv
  have hne1 : other ≠ this := fun e => hne e.symm
  obtain ⟨w1, hnew, hnf1, ho1, hbl1⟩ := new_array_ok (w.objs other).capacity_
    (w.print "Copy constructor called.\n") hnf
  simp only [print_blocks, print_objs] at hnew ho1 hbl1
  have hfresh : (w.objs other).data_ ≠ some w.blocks.length := by
    intro e
    rw [e, bufAt_fresh] at hb
    cases hb
  obtain ⟨w2, hw2⟩ : ∃ w2, w2 =
      w1.setObj this { (w1.objs this) with data_ := some w.blocks.length } := ⟨_, rfl⟩
  have ho2o : w2.objs other = w.objs other := by
    rw [hw2, setObj_objs, if_neg hne1, ho1]
  have hd2 : (w2.objs this).data_ = some w.blocks.length := by rw [hw2]; simp
  have hbl2 : w2.blocks = w.blocks ++ [some (List.replicate (w.objs other).capacity_ default)] := by
    rw [hw2]; exact hbl1
  have hsrc : bufAt w2.blocks (w.objs other).data_ = some b := by
    rw [hbl2]; exact bufAt_append_of_some hb _
  have hdst : bufAt w2.blocks (some w.blocks.length) =
      some (List.replicate (w.objs other).capacity_ default) := by
    rw [hbl2]; exact bufAt_append_fresh _ _
  obtain ⟨w3, hcp, ha3, ho3, -, hb3, hfr3⟩ := copy_elems_ok hfresh
    (w.objs other).size_ w2 hsrc hdst (by omega) (by simp; omega)
  have ho3o : w3.objs other = w.objs other := by rw [ho3, ho2o]
  refine ⟨((w3.setObj this { (w3.objs this) with size_ := (w3.objs other).size_ }).setObj this
    { ((w3.setObj this { (w3.objs this) with size_ := (w3.objs other).size_ }).objs this) with
      capacity_ := ((w3.setObj this { (w3.objs this) with
        size_ := (w3.objs other).size_ }).objs other).capacity_ }), ?_, ?_, ?_, ?_, ?_, ?_, ?_⟩
  · unfold ctor_copy
    simp only [print_objs, hnew, ← hw2, ho2o, hd2, hcp]
  · unfold NoFail
    simp only [setObj_allocFails, ha3, hw2]
    exact hnf1
  · refine ⟨?_, ?_, ?_⟩
    · simp only [setObj_objs_self, setObj_objs, if_neg hne1, ho3o]; exact hle
    · simp only [setObj_objs_self, setObj_objs, if_neg hne1, ho3o]; exact hcap
    · simp only [setObj_objs_self, setObj_objs, if_neg hne1, ho3o, setObj_blocks, ho3, hd2, hb3,
        Option.map_some', List.length_append, List.length_take, List.length_drop,
        List.length_replicate]
      congr 1; omega
  · simp only [setObj_objs_self, setObj_objs, if_neg hne1, ho3o, ho3, hd2]
  · intro k hk
    simp only [setObj_objs, if_neg hk, ho3, hw2, ho1]
  · simp only [elems, setObj_objs_self, setObj_objs, if_neg hne1, ho3o, setObj_blocks, ho3, hd2,
      hb3, hb, Option.getD_some]
    rw [take_append_take _ _ _ (by omega)]
  · intro q c hq
    simp only [setObj_blocks]
    have hq1 : q ≠ some w.blocks.length := by
      intro e; rw [e, bufAt_fresh] at hq; cases hq
    rw [hfr3 q hq1, hbl2]
    exact bufAt_append_of_some hq _

theorem delete_array_length {p : Option Nat} {w w1 : World α}
    (h : delete_array p w = some w1) : w1.blocks.length = w.blocks.length := by
  cases p with
  | none => simp only [delete_array, Option.some.injEq] at h; rw [← h]
  | some a =>
    simp only [delete_array] at h
    split at h
    · simp only [Option.some.injEq] at h; rw [← h]; simp
    · cases h

/-- Copy assignment to a distinct, valid destination that does not share the
source's buffer, when no allocation fails. -/
theorem assign_copy_ok [Inhabited α] (this other : Nat) (w : World α) (hne : this ≠ other)
    (hvt : Valid this w) (hv : Valid other w) (hsep : Separate this other w)
    (hnf : NoFail w) :
    ∃ w1, assign_copy this other w = .ok w1 ∧ NoFail w1 ∧ Valid this w1 ∧
      w1.objs this =
        ⟨some w.blocks.length, (w.objs other).size_, (w.objs other).capacity_⟩ ∧
      (∀ k, k ≠ this → w1.objs k = w.objs k) ∧
      elems this w1 = elems other w ∧
      ∀ q c, bufAt w.blocks q = some c → (q = none ∨ q ≠ (w.objs this).data_) →
        bufAt w1.blocks q = some c := by
  obtain ⟨b, hb, hl⟩ := valid_buf hv
  obtain ⟨bt, hbt, -⟩ := valid_buf hvt
  obtain ⟨hle, hcap, -⟩ := hv
  have hne1 : other ≠ this := fun e => hne e.symm
  obtain ⟨wd, hdel, had, hod, -, -, hfrd⟩ := delete_array_ok
    (w := w.print "Copy assignment operator called.\n") (p := (w.objs this).data_) hbt
  have hlen := delete_array_length hdel
  simp only [print_blocks, print_objs, print_allocFails] at had hod hfrd hlen
  have hsepq : (w.objs other).data_ = none ∨ (w.objs other).data_ ≠ (w.objs this).data_ := by
    rcases hsep with h | h
    · by_cases h1 : (w.objs other).data_ = none
      · exact Or.inl h1
      · exact Or.inr (by rw [h]; exact h1)
    · exact Or.inr (fun e => h e.symm)
  have hbd : bufAt wd.blocks (w.objs other).data_ = some b := by
    rw [hfrd _ hsepq]; exact hb
  obtain ⟨w1, hnew, hnf1, ho1, hbl1⟩ := new_array_ok (w.objs other).capacity_ wd
    (by unfold NoFail; rw [had]; exact hnf)
  rw [hlen] at hnew
  have hfresh : (w.objs other).data_ ≠ some w.blocks.length := by
    intro e
    rw [e, bufAt_fresh] at hb
    cases hb
  obtain ⟨w2, hw2⟩ : ∃ w2, w2 =
      w1.setObj this { (w1.objs this) with data_ := some w.blocks.length } := ⟨_, rfl⟩
  have ho2o : w2.objs other = w.objs other := by
    rw [hw2, setObj_objs, if_neg hne1, ho1, hod]
  have hd2 : (w2.objs this).data_ = some w.blocks.length := by rw [hw2]; simp
  have hbl2 : w2.blocks = wd.blocks ++ [some (List.replicate (w.objs other).capacity_ default)] := by
    rw [hw2]; exact hbl1
  have hsrc : bufAt w2.blocks (w.objs other).data_ = some b := by
    rw [hbl2]; exact bufAt_append_of_some hbd _
  have hdst : bufAt w2.blocks (some w.blocks.length) =
      some (List.replicate (w.objs other).capacity_ default) := by
    rw [hbl2, ← hlen]; exact bufAt_append_fresh _ _
  obtain ⟨w3, hcp, ha3, ho3, -, hb3, hfr3⟩ := copy_elems_ok hfresh
    (w.objs other).size_ w2 hsrc hdst (by omega) (by simp; omega)
  have ho3o : w3.objs other = w.objs other := by rw [ho3, ho2o]
  refine ⟨((w3.setObj this { (w3.objs this) with size_ := (w3.objs other).size_ }).setObj this
    { ((w3.setObj this { (w3.objs this) with size_ := (w3.objs other).size_ }).objs this) with
      capacity_ := ((w3.setObj this { (w3.objs this) with
        size_ := (w3.objs other).size_ }).objs other).capacity_ }), ?_, ?_, ?_, ?_, ?_, ?_, ?_⟩
  · unfold assign_copy
    simp only [if_neg hne, print_objs, hdel, hod, hnew, ← hw2, ho2o, hd2, hcp]
  · unfold NoFail
    simp only [setObj_allocFails, ha3, hw2]
    exact hnf1
  · refine ⟨?_, ?_, ?_⟩
    · simp only [setObj_objs_self, setObj_objs, if_neg hne1, ho3o]; exact hle
    · simp only [setObj_objs_self, setObj_objs, if_neg hne1, ho3o]; exact hcap
    · simp only [setObj_objs_self, setObj_objs, if_neg hne1, ho3o, setObj_blocks, ho3, hd2, hb3,
        Option.map_some', List.length_append, List.length_take, List.length_drop,
        List.length_replicate]
      congr 1; omega
  · simp only [setObj_objs_self, setObj_objs, if_neg hne1, ho3o, ho3, hd2]
  · intro k hk
    simp only [setObj_objs, if_neg hk, ho3, hw2, ho1, hod]
  · simp only [elems, setObj_objs_self, setObj_objs, if_neg hne1, ho3o, setObj_blocks, ho3, hd2,
      hb3, hb, Option.getD_some]
    rw [take_append_take _ _ _ (by omega)]
  · intro q c hq hqn
    simp only [setObj_blocks]
    have hq1 : q ≠ some w.blocks.length := by
      intro e; rw [e, bufAt_fresh] at hq; cases hq
    rw [hfr3 q hq1, hbl2]
    exact bufAt_append_of_some (by rw [hfrd q hqn]; exact hq) _

/-- The move constructor. -/
theorem ctor_move_ok (this other : Nat) (w : World α) (hne : this ≠ other) :
    ∃ w1, ctor_move this other w = .ok w1 ∧ w1.objs this = w.objs other ∧
      w1.objs other = ⟨none, 0, 0⟩ ∧ (∀ k, k ≠ this → k ≠ other → w1.objs k = w.objs k) ∧
      w1.blocks = w.blocks ∧ w1.allocFails = w.allocFails := by
  have hne1 : other ≠ this := fun e => hne e.symm
  refine ⟨_, rfl, ?_, ?_, ?_, rfl, rfl⟩
  · simp [setObj_objs, hne, hne1]
  · simp [setObj_objs, hne, hne1]
  · intro k hk1 hk2
    simp [setObj_objs, hk1, hk2]

/-- Move assignment to a distinct destination whose pointer can be released. -/
theorem assign_move_ok (this other : Nat) (w : World α) (hne : this ≠ other) {bt : List α}
    (hbt : bufAt w.blocks (w.objs this).data_ = some bt) :
    ∃ w1, assign_move this other w = .ok w1 ∧ w1.objs this = w.objs other ∧
      w1.objs other = ⟨none, 0, 0⟩ ∧ (∀ k, k ≠ this → k ≠ other → w1.objs k = w.objs k) ∧
      w1.allocFails = w.allocFails ∧
      ∀ q, (q = none ∨ q ≠ (w.objs this).data_) → bufAt w1.blocks q = bufAt w.blocks q := by
  have hne1 : other ≠ this := fun e => hne e.symm
  obtain ⟨wd, hdel, had, hod, -, -, hfrd⟩ := delete_array_ok
    (w := w.print "Move assignment operator called.\n") (p := (w.objs this).data_) hbt
  simp only [print_blocks, print_objs, print_allocFails] at had hod hfrd
  unfold assign_move
  simp only [if_neg hne, print_objs, hdel]
  refine ⟨_, rfl, ?_, ?_, ?_, ?_, ?_⟩
  · simp [setObj_objs, hne, hne1, hod]
  · simp [setObj_objs, hne, hne1]
  · intro k hk1 hk2
    simp [setObj_objs, hk1, hk2, hod]
  · simp only [setObj_allocFails, had]
  · intro q hq
    simp only [setObj_blocks]
    exact hfrd q hq

/-- A sequence of `push_back` calls when no allocation fails and the sizes stay
within half the range of `size_t`. -/
theorem push_all_ok [Inhabited α] (this : Nat) : ∀ (xs : List α) (w : World α),
    Valid this w → NoFail w → (w.objs this).size_ + xs.length ≤ SIZE_MOD / 2 →
    ∃ w1, push_all this xs w = .ok w1 ∧ NoFail w1 ∧ Valid this w1 ∧
      (w1.objs this).size_ = (w.objs this).size_ + xs.length ∧
      elems this w1 = elems this w ++ xs := by
  intro xs
  induction xs with
  | nil =>
    intro w hv hnf _
    exact ⟨w, rfl, hnf, hv, by simp, by simp⟩
  | cons x xs ih =>
    intro w hv hnf hN
    simp only [List.length_cons] at hN
    obtain ⟨w1, hp, hnf1, hv1, hs1, -, -, he1, -, -⟩ := push_back_ok this x w hv hnf
      (by intro h; unfold SIZE_MOD at *; omega)
    obtain ⟨w2, hp2, hnf2, hv2, hs2, he2⟩ := ih w1 hv1 hnf1 (by rw [hs1]; omega)
    refine ⟨w2, ?_, hnf2, hv2, ?_, ?_⟩
    · simp only [push_all, hp, hp2]
    · rw [hs2, hs1, List.length_cons]; omega
    · rw [he2, he1]; simp

/-- An object whose fields and whose cells are the same in two states is
observed the same in both. -/
theorem sameView_of_buf {a : Nat} {w w2 : World α} (ho : w2.objs a = w.objs a)
    (hb : bufAt w2.blocks (w.objs a).data_ = bufAt w.blocks (w.objs a).data_) :
    SameView a w w2 := by
  refine ⟨by simp [size, ho], by simp [capacity, ho], ?_⟩
  intro i _
  simp only [load, index, rd_eq, ho, hb]

theorem load_some_of_valid {a : Nat} {w : World α} (hv : Valid a w) (i : Nat)
    (hi : i < (w.objs a).size_) : ∃ v, load (index a i w) w = some v := by
  have hlen := elems_length hv
  exact ⟨(elems a w)[i], by
    rw [load_index hv i hi, List.getElem?_eq_getElem (by omega)]⟩

theorem isCopy_of {this other : Nat} {w w1 : World α} (hne : this ≠ other)
    (hv : Valid other w) (hv1 : Valid this w1)
    (ho : w1.objs this =
      ⟨some w.blocks.length, (w.objs other).size_, (w.objs other).capacity_⟩)
    (hoth : ∀ k, k ≠ this → w1.objs k = w.objs k)
    (he : elems this w1 = elems other w)
    (hfr : bufAt w1.blocks (w.objs other).data_ = bufAt w.blocks (w.objs other).data_) :
    IsCopy this other w w1 := by
  have hoo : w1.objs other = w.objs other := hoth other (fun e => hne e.symm)
  refine ⟨by simp [size, ho], by simp [capacity, ho], hv1.1, ?_, hoo, sameView_of_buf hoo hfr⟩
  intro i hi
  unfold size at hi
  obtain ⟨v, hvv⟩ := load_some_of_valid hv i hi
  refine ⟨v, hvv, ?_⟩
  rw [load_index hv1 i (by rw [ho]; exact hi), he, ← load_index hv i hi, hvv]

theorem isMoved_of {this other : Nat} {w w1 : World α} (hv : Valid other w)
    (ho : w1.objs this = w.objs other) (hoo : w1.objs other = ⟨none, 0, 0⟩)
    (hfr : bufAt w1.blocks (w.objs other).data_ = bufAt w.blocks (w.objs other).data_) :
    IsMoved this other w w1 := by
  refine ⟨by simp [size, ho], by simp [capacity, ho], ?_, by rw [hoo], by simp [size, hoo],
    by simp [capacity, hoo]⟩
  intro i hi
  unfold size at hi
  obtain ⟨v, hvv⟩ := load_some_of_valid hv i hi
  refine ⟨v, hvv, ?_⟩
  rw [← hvv]
  simp only [load, index, rd_eq, ho, hfr]

/-! ## The capacity check of `push_back` -/

theorem push_back_rv_eq [Inhabited α] (this : Nat) (value : Arg α) (w : World α) :
    push_back_rv this value w = push_back this value w := rfl

theorem push_back_eq_grow [Inhabited α] (this : Nat) (value : Arg α) (w : World α) :
    push_back this value w =
      match push_back_grow this w with
      | .ok w1 =>
        match value.read w1 with
        | none => .ub
        | some x =>
          match wr (w1.objs this).data_ (w1.objs this).size_ x w1 with
          | none => .ub
          | some w2 =>
            .ok (w2.setObj this
              { (w2.objs this) with size_ := ((w2.objs this).size_ + 1) % SIZE_MOD })
      | .threw e w1 => .threw e w1
      | .ub => .ub := rfl

/-- The argument is read after the capacity check: when it then reads `x`, the
call behaves as the call that is handed `x` itself. -/
theorem push_back_of_read [Inhabited α] (this : Nat) (value : Arg α) (x : α) (w wg : World α)
    (hg : push_back_grow this w = .ok wg) (hr : value.read wg = some x) :
    push_back this value w = push_back this (.val x) w := by
  rw [push_back_eq_grow, push_back_eq_grow, hg]
  simp only [hr]
  rfl

/-- When the argument cannot be read after the capacity check, the call is
undefined. -/
theorem push_back_ub_of_unreadable [Inhabited α] (this : Nat) (value : Arg α) (w wg : World α)
    (hg : push_back_grow this w = .ok wg) (hr : value.read wg = none) :
    push_back this value w = .ub := by
  rw [push_back_eq_grow, hg]
  simp only [hr]

theorem push_back_of_grow_threw [Inhabited α] (this : Nat) (value : Arg α) (w wg : World α)
    (e : Exn) (hg : push_back_grow this w = .threw e wg) :
    push_back this value w = .threw e wg := by
  rw [push_back_eq_grow, hg]

/-- A property of the state a call leaves that holds whatever value is handed
over holds however the argument is passed. -/
theorem holds_push_back_of_val [Inhabited α] {P : World α → Prop} (this : Nat)
    (value : Arg α) (w : World α) (h : ∀ x, (push_back this (.val x) w).Holds P) :
    (push_back this value w).Holds P := by
  rcases hg : push_back_grow this w with wg | ⟨e, wg⟩ | _
  · rcases hr : value.read wg with _ | x
    · rw [push_back_ub_of_unreadable this value w wg hg hr]; trivial
    · rw [push_back_of_read this value x w wg hg hr]; exact h x
  · have h1 := h default
    rw [push_back_of_grow_threw this _ w wg e hg] at h1
    rw [push_back_of_grow_threw this _ w wg e hg]
    exact h1
  · rw [push_back_eq_grow, hg]; trivial

theorem push_back_grow_cases [Inhabited α] (this : Nat) (w : World α) (hv : Valid this w)
    (hov : (w.objs this).size_ = (w.objs this).capacity_ →
      (w.objs this).capacity_ * 2 < SIZE_MOD) :
    (∃ w1, push_back_grow this w = .threw .bad_alloc w1 ∧ ¬ NoFail w ∧
      (w.objs this).size_ = (w.objs this).capacity_) ∨
    ∃ w1, push_back_grow this w = .ok w1 ∧ Valid this w1 ∧
      (w1.objs this).size_ = (w.objs this).size_ ∧
      (w1.objs this).size_ < (w1.objs this).capacity_ ∧
      ((w.objs this).size_ < (w.objs this).capacity_ → w1 = w) ∧
      (w1.objs this).capacity_ =
        (if (w.objs this).size_ = (w.objs this).capacity_ then
          (if (w.objs this).capacity_ = 0 then 1 else (w.objs this).capacity_ * 2)
         else (w.objs this).capacity_) ∧
      (∀ a, (w.objs this).size_ = (w.objs this).capacity_ → (w.objs this).data_ = some a →
        bufAt w1.blocks (some a) = none) ∧
      ∀ q c, bufAt w.blocks q = some c → (q = none ∨ q ≠ (w.objs this).data_) →
        bufAt w1.blocks q = some c := by
  obtain ⟨b, hb, hl⟩ := valid_buf hv
  have hv0 := hv
  obtain ⟨hle, hcap, -⟩ := hv
  unfold push_back_grow
  by_cases hfull : (w.objs this).size_ = (w.objs this).capacity_
  · obtain ⟨nc, hncdef⟩ : ∃ nc, nc =
        (if (w.objs this).capacity_ = 0 then 1 else (w.objs this).capacity_ * 2 % SIZE_MOD) :=
      ⟨_, rfl⟩
    have hnceq : nc = (if (w.objs this).capacity_ = 0 then 1
        else (w.objs this).capacity_ * 2) := by
      rw [hncdef]
      split
      · rfl
      · rw [Nat.mod_eq_of_lt (hov hfull)]
    have hnc : (w.objs this).size_ < nc := by
      rw [hnceq]; split <;> omega
    have hncM : nc < SIZE_MOD := by
      rw [hnceq]; split
      · unfold SIZE_MOD; omega
      · exact hov hfull
    rcases resize_cases this nc w hb (by omega) hnc with
      ⟨w1, hrs, hno, -, -⟩ | ⟨w1, hrs, -, ho1, -, hb1, hdead, hfr1⟩
    · left
      refine ⟨w1, ?_, hno, hfull⟩
      simp only [ge_iff_le, hfull, le_refl, if_true, ← hncdef]
      exact hrs
    · right
      refine ⟨w1, ?_, ⟨?_, ?_, ?_⟩, by simp [ho1], by simp only [ho1]; exact hnc,
        fun h => absurd hfull (by omega), ?_, fun a _ ha => hdead a ha, hfr1⟩
      · simp only [ge_iff_le, hfull, le_refl, if_true, ← hncdef]
        exact hrs
      · rw [ho1]; simp only; omega
      · rw [ho1]; exact hncM
      · rw [ho1]; simp only
        rw [hb1]
        simp only [Option.map_some', List.length_append, List.length_take, List.length_drop,
          List.length_replicate]
        congr 1; omega
      · rw [ho1, if_pos hfull, hnceq]
  · right
    simp only [ge_iff_le, Nat.not_le.mpr (show (w.objs this).size_ < (w.objs this).capacity_ by
      omega), if_false]
    exact ⟨w, rfl, hv0, rfl, by omega, fun _ => rfl, by rw [if_neg hfull],
      fun a h _ => absurd h hfull, fun q c hq _ => hq⟩

/-- An argument that can be read before the call, and that the capacity check
cannot invalidate, reads the same after the capacity check. -/
theorem read_after_grow [Inhabited α] (this : Nat) (value : Arg α) (x : α) (w wg : World α)
    (hv : Valid this w)
    (hov : (w.objs this).size_ = (w.objs this).capacity_ →
      (w.objs this).capacity_ * 2 < SIZE_MOD)
    (hg : push_back_grow this w = .ok wg) (hr : value.read w = some x)
    (hsafe : (w.objs this).size_ < (w.objs this).capacity_ ∨ value.Outside this w) :
    value.read wg = some x := by
  rcases push_back_grow_cases this w hv hov with
    ⟨w1, h, -⟩ | ⟨w1, h, -, -, -, hsame, -, -, hfr⟩
  · rw [hg] at h; cases h
  · rw [hg] at h
    cases h
    rcases hsafe with hlt | hout
    · rw [hsame hlt]; exact hr
    · cases value with
      | val y => exact hr
      | cell r =>
        simp only [Arg.read, rd_eq] at hr ⊢
        rcases hc : bufAt w.blocks r.base with _ | c
        · rw [hc] at hr; cases hr
        · rw [hfr r.base c hc (Or.inr hout)]
          rw [hc] at hr; exact hr

/-- A call whose argument reads `x` and cannot be invalidated by the capacity
check behaves as the call that is handed `x` itself. -/
theorem push_back_of_safe [Inhabited α] (this : Nat) (value : Arg α) (x : α) (w : World α)
    (hv : Valid this w)
    (hov : (w.objs this).size_ = (w.objs this).capacity_ →
      (w.objs this).capacity_ * 2 < SIZE_MOD)
    (hr : value.read w = some x)
    (hsafe : (w.objs this).size_ < (w.objs this).capacity_ ∨ value.Outside this w) :
    push_back this value w = push_back this (.val x) w := by
  rcases hg : push_back_grow this w with wg | ⟨e, wg⟩ | _
  · exact push_back_of_read this value x w wg hg
      (read_after_grow this value x w wg hv hov hg hr hsafe)
  · rw [push_back_of_grow_threw this _ w wg e hg, push_back_of_grow_threw this _ w wg e hg]
  · rw [push_back_eq_grow, push_back_eq_grow, hg]

theorem wr_none_of_ge {p : Option Nat} {w : World α} {b : List α} (i : Nat) (x : α)
    (h : bufAt w.blocks p = some b) (hi : b.length ≤ i) : wr p i x w = none := by
  cases p with
  | none => rfl
  | some a =>
    have h1 := bufAt_some_eq.mp h
    simp [wr, h1, Nat.not_lt.mpr hi]

/-- When the object is full and twice its capacity is not representable, the
wrapped request is not larger than the size, `resize` returns at its guard and
the assignment to slot `size_` lies outside the buffer. -/
theorem push_back_overflow [Inhabited α] (this : Nat) (value : Arg α) (w : World α)
    (hv : Valid this w) (hfull : (w.objs this).size_ = (w.objs this).capacity_)
    (hov : SIZE_MOD ≤ (w.objs this).capacity_ * 2) : push_back this value w = .ub := by
  obtain ⟨b, hb, hl⟩ := valid_buf hv
  obtain ⟨-, hcap, -⟩ := hv
  have hne : (w.objs this).capacity_ ≠ 0 := by
    intro h; rw [h] at hov; unfold SIZE_MOD at hov; omega
  have hmod : (w.objs this).capacity_ * 2 % SIZE_MOD ≤ (w.objs this).size_ := by
    rw [Nat.mod_eq_sub_mod hov, Nat.mod_eq_of_lt (by omega)]; omega
  have hg : push_back_grow this w = .ok w := by
    unfold push_back_grow
    rw [if_pos (by omega), if_neg hne]
    exact resize_noop this _ w hmod
  rw [push_back_eq_grow, hg]
  simp only
  rcases value.read w with _ | x
  · rfl
  · simp only
    rw [wr_none_of_ge _ x hb (by omega)]

theorem frame_refl (b : Nat) (w : World α) : Frame b w w :=
  ⟨fun _ _ => rfl, fun _ _ h _ => h⟩

theorem frame_of_same (b : Nat) {w w1 : World α} (ho : ∀ k, k ≠ b → w1.objs k = w.objs k)
    (hb : w1.blocks = w.blocks) : Frame b w w1 :=
  ⟨ho, fun _ _ h _ => by rw [hb]; exact h⟩

theorem push_back_frame [Inhabited α] (b : Nat) (value : Arg α) (w : World α)
    (hv : Valid b w) : (push_back b value w).Holds (Frame b w) := by
  by_cases hov : (w.objs b).size_ = (w.objs b).capacity_ →
      (w.objs b).capacity_ * 2 < SIZE_MOD
  · apply holds_push_back_of_val
    intro x
    rcases push_back_cases b x w hv hov with
      ⟨w1, hp, -, -, ho, hbl⟩ | ⟨w1, hp, -, -, -, -, -, -, hoth, hfr⟩
    · rw [hp]; exact frame_of_same b (fun k _ => by rw [ho]) hbl
    · rw [hp]; exact ⟨hoth, hfr⟩
  · have hfull : (w.objs b).size_ = (w.objs b).capacity_ := by
      by_contra h; exact hov (fun e => absurd e h)
    rw [push_back_overflow b value w hv hfull (by
      by_contra h; exact hov (fun _ => by omega))]
    trivial

theorem pop_back_empty [Inhabited α] (this : Nat) (w : World α)
    (h : (w.objs this).size_ = 0) : pop_back this w = .ok w := by
  unfold pop_back
  rw [if_neg (by omega)]

theorem pop_back_frame [Inhabited α] (b : Nat) (w : World α) (hv : Valid b w) :
    (pop_back b w).Holds (Frame b w) := by
  by_cases hpos : 0 < (w.objs b).size_
  · rcases pop_back_cases b w hv hpos with
      ⟨w1, hp, -, -, -, hoth, hbl⟩ | ⟨w1, hp, -, -, -, -, -, -, hoth, hfr⟩
    · rw [hp]; exact frame_of_same b hoth hbl
    · rw [hp]; exact ⟨hoth, hfr⟩
  · rw [pop_back_empty b w (by omega)]
    exact frame_refl b w

theorem store_frame (b : Nat) (i : Nat) (x : α) (w : World α) (hv : Valid b w)
    (hi : i < (w.objs b).size_) :
    ∃ w2, store (index b i w) x w = some w2 ∧ Frame b w w2 := by
  obtain ⟨c, hc, hl⟩ := valid_buf hv
  have hle := hv.1
  obtain ⟨w2, hw, -, ho, -, -, hfr⟩ := wr_ok i x hc (by omega)
  refine ⟨w2, hw, fun k _ => by rw [ho], ?_⟩
  intro q c1 hq hqn
  rcases hqn with hqn | hqn
  · subst hqn; simpa using hq
  · rw [hfr q hqn]; exact hq

/-- A step that touched only `b` leaves an object `a` with a separate buffer
observed as before. -/
theorem sameView_of_frame {a b : Nat} {w w1 w2 : World α} {c : List α} (hne : a ≠ b)
    (ho : w1.objs a = w.objs a)
    (hb : bufAt w.blocks (w.objs a).data_ = some c)
    (hb1 : bufAt w1.blocks (w.objs a).data_ = some c)
    (hsep : (w.objs a).data_ = none ∨ (w.objs a).data_ ≠ (w1.objs b).data_)
    (hf : Frame b w1 w2) : SameView a w w2 := by
  apply sameView_of_buf
  · rw [hf.1 a hne, ho]
  · rw [hf.2 _ c hb1 hsep, hb]

theorem holds_mono {σ : Type} {P Q : σ → Prop} (h : ∀ s, P s → Q s) :
    ∀ o : Outcome σ, o.Holds P → o.Holds Q
  | .ok s, hp => h s hp
  | .threw _ s, hp => h s hp
  | .ub, _ => trivial

/-- After `b` has been made a copy of `a`, the mutations of `b` leave `a` alone. -/
theorem mutationsLeave_of [Inhabited α] {a b : Nat} {w w1 : World α} (x : α) (i : Nat)
    (hne : b ≠ a) (hva : Valid a w) (hv1 : Valid b w1) (hnf1 : NoFail w1)
    (ho : w1.objs b =
      ⟨some w.blocks.length, (w.objs a).size_, (w.objs a).capacity_⟩)
    (hoth : ∀ k, k ≠ b → w1.objs k = w.objs k)
    (hfr : bufAt w1.blocks (w.objs a).data_ = bufAt w.blocks (w.objs a).data_) :
    MutationsLeave a b w w1 x i := by
  obtain ⟨c, hc, -⟩ := valid_buf hva
  have hne1 : a ≠ b := fun e => hne e.symm
  have hoa : w1.objs a = w.objs a := hoth a hne1
  have hfresh : (w.objs a).data_ ≠ some w.blocks.length := by
    intro e; rw [e, bufAt_fresh] at hc; cases hc
  have hsep : (w.objs a).data_ = none ∨ (w.objs a).data_ ≠ (w1.objs b).data_ := by
    right; rw [ho]; exact hfresh
  have hc1 : bufAt w1.blocks (w.objs a).data_ = some c := by rw [hfr]; exact hc
  have key : ∀ w2, Frame b w1 w2 → SameView a w w2 :=
    fun w2 hf => sameView_of_frame hne1 hoa hc hc1 hsep hf
  refine ⟨?_, ?_, ?_, ?_, ?_, ?_, ?_, ?_⟩
  · rw [hoa, ho]; exact fun e => hfresh e.symm
  · exact fun value => holds_mono key _ (push_back_frame b value w1 hv1)
  · intro value
    rw [push_back_rv_eq]; exact holds_mono key _ (push_back_frame b value w1 hv1)
  · exact holds_mono key _ (pop_back_frame b w1 hv1)
  · intro hi
    obtain ⟨w2, hs, hf⟩ := store_frame b i x w1 hv1 hi
    exact ⟨w2, hs, key w2 hf⟩
  · intro hi
    obtain ⟨w2, hs, hf⟩ := store_frame b i x w1 hv1 hi
    refine ⟨index b i w1, w2, ?_, hs, key w2 hf⟩
    unfold size at hi
    simp only [at_, index, ge_iff_le, Nat.not_le.mpr hi, if_false]
  · by_cases hpos : 0 < (w1.objs b).size_
    · obtain ⟨w2, hp, -⟩ := pop_back_ok b w1 hv1 hnf1 hpos
      exact ⟨w2, hp⟩
    · exact ⟨w1, pop_back_empty b w1 (by omega)⟩
  · intro hrep
    obtain ⟨w2, hp, -⟩ := push_back_ok b x w1 hv1 hnf1 (fun _ => hrep)
    exact ⟨w2, hp⟩

/-! ## The invariant `size_ ≤ capacity_` -/

theorem wr_objs {p : Option Nat} {i : Nat} {x : α} {w w1 : World α}
    (h : wr p i x w = some w1) : w1.objs = w.objs := by
  cases p with
  | none => simp [wr] at h
  | some a =>
    simp only [wr] at h
    split at h
    · split at h
      · simp only [Option.some.injEq] at h; rw [← h]
      · cases h
    · cases h

theorem delete_array_objs {p : Option Nat} {w w1 : World α}
    (h : delete_array p w = some w1) : w1.objs = w.objs := by
  cases p with
  | none => simp only [delete_array, Option.some.injEq] at h; rw [← h]
  | some a =>
    simp only [delete_array] at h
    split at h
    · simp only [Option.some.injEq] at h; rw [← h]
    · cases h

theorem copy_elems_objs {src dst : Option Nat} :
    ∀ (n : Nat) {w w1 : World α}, copy_elems src dst n w = some w1 → w1.objs = w.objs := by
  intro n
  induction n with
  | zero =>
    intro w w1 h
    simp only [copy_elems, Option.some.injEq] at h; rw [← h]
  | succ n ih =>
    intro w w1 h
    simp only [copy_elems] at h
    split at h
    · cases h
    · next w2 hc =>
      split at h
      · cases h
      · rw [wr_objs h, ih hc]

theorem new_array_objs [Inhabited α] (n : Nat) (w : World α) :
    (new_array n w).2.objs = w.objs := by
  unfold new_array
  split <;> rfl

theorem resize_inv [Inhabited α] (this nc : Nat) (w : World α) (h : SizeLeCap this w) :
    (resize this nc w).Holds (SizeLeCap this) := by
  unfold SizeLeCap size capacity at *
  unfold resize
  by_cases hg : nc ≤ (w.objs this).size_
  · rw [if_pos hg]; exact h
  · rw [if_neg hg]
    simp only []
    have hobj := new_array_objs nc (w.print
      ("Resizing from " ++ toString (w.objs this).capacity_ ++ " to " ++ toString nc ++ "\n"))
    rcases hn : new_array nc (w.print
      ("Resizing from " ++ toString (w.objs this).capacity_ ++ " to " ++ toString nc ++ "\n"))
      with ⟨_ | a, w1⟩
    · rw [hn] at hobj
      simp only [print_objs] at hobj
      simp only [Outcome.Holds, hobj]; exact h
    · rw [hn] at hobj
      simp only [print_objs] at hobj
      simp only []
      rcases hc : copy_elems (w1.objs this).data_ (some a) (w1.objs this).size_ w1 with _ | w2
      · trivial
      · simp only []
        rcases hd : delete_array (w2.objs this).data_ w2 with _ | w3
        · trivial
        · simp only [Outcome.Holds, setObj_objs_self, delete_array_objs hd, copy_elems_objs _ hc,
            hobj]
          omega

theorem pop_back_inv [Inhabited α] (this : Nat) (w : World α) (h : SizeLeCap this w) :
    (pop_back this w).Holds (SizeLeCap this) := by
  unfold pop_back
  by_cases hpos : (w.objs this).size_ > 0
  · rw [if_pos hpos]
    have h1 : SizeLeCap this
        (w.setObj this { (w.objs this) with size_ := (w.objs this).size_ - 1 }) := by
      unfold SizeLeCap size capacity at *
      simp only [setObj_objs_self]; omega
    simp only []
    split
    · exact resize_inv this _ _ h1
    · exact h1
  · rw [if_neg hpos]; exact h

theorem push_back_inv [Inhabited α] (this : Nat) (value : Arg α) (w : World α)
    (hv : Valid this w) : (push_back this value w).Holds (SizeLeCap this) := by
  by_cases hov : (w.objs this).size_ = (w.objs this).capacity_ →
      (w.objs this).capacity_ * 2 < SIZE_MOD
  · apply holds_push_back_of_val
    intro x
    rcases push_back_cases this x w hv hov with
      ⟨w1, hp, -, -, ho, -⟩ | ⟨w1, hp, -, hv1, -⟩
    · rw [hp]
      simp only [Outcome.Holds, SizeLeCap, size, capacity, ho]
      exact hv.1
    · rw [hp]; exact hv1.1
  · have hfull : (w.objs this).size_ = (w.objs this).capacity_ := by
      by_contra h; exact hov (fun e => absurd e h)
    rw [push_back_overflow this value w hv hfull (by
      by_contra h; exact hov (fun _ => by omega))]
    trivial

theorem assign_copy_inv [Inhabited α] (this other : Nat) (w : World α)
    (ht : SizeLeCap this w) (ho : SizeLeCap other w) :
    (assign_copy this other w).Holds (fun w1 => SizeLeCap this w1 ∧ SizeLeCap other w1) := by
  unfold SizeLeCap size capacity at *
  unfold assign_copy
  by_cases he : this = other
  · rw [if_pos he]; exact ⟨ht, ho⟩
  · have he1 : other ≠ this := fun e => he e.symm
    rw [if_neg he]
    simp only [print_objs]
    rcases hd : delete_array (w.objs this).data_
      (w.print "Copy assignment operator called.\n") with _ | w1
    · trivial
    · have ho1 : w1.objs = w.objs := by rw [delete_array_objs hd]; rfl
      simp only []
      have hobj := new_array_objs (w1.objs other).capacity_ w1
      rcases hn : new_array (w1.objs other).capacity_ w1 with ⟨_ | a, w2⟩
      · rw [hn] at hobj
        simp only at hobj
        simp only [Outcome.Holds, hobj, ho1]; exact ⟨ht, ho⟩
      · rw [hn] at hobj
        simp only at hobj
        simp only [setObj_objs_self, setObj_objs, if_neg he1]
        rcases hc : copy_elems (w2.objs other).data_ (some a) (w2.objs other).size_
          (w2.setObj this { (w2.objs this) with data_ := some a }) with _ | w4
        · trivial
        · simp only [Outcome.Holds, setObj_objs_self, setObj_objs, if_neg he1,
            copy_elems_objs _ hc, hobj, ho1]
          exact ⟨ho, ho⟩

theorem assign_move_inv (this other : Nat) (w : World α)
    (ht : SizeLeCap this w) (ho : SizeLeCap other w) :
    (assign_move this other w).Holds (fun w1 => SizeLeCap this w1 ∧ SizeLeCap other w1) := by
  unfold SizeLeCap size capacity at *
  unfold assign_move
  by_cases he : this = other
  · rw [if_pos he]; exact ⟨ht, ho⟩
  · have he1 : other ≠ this := fun e => he e.symm
    rw [if_neg he]
    simp only [print_objs]
    rcases hd : delete_array (w.objs this).data_
      (w.print "Move assignment operator called.\n") with _ | w1
    · trivial
    · have ho1 : w1.objs = w.objs := by rw [delete_array_objs hd]; rfl
      simp only [Outcome.Holds, setObj_objs_self, setObj_objs, if_neg he1, if_neg he, ho1,
        if_true, le_refl, and_true]
      exact ho

theorem ctor_copy_inv [Inhabited α] (this other : Nat) (w : World α) (hne : this ≠ other)
    (ho : SizeLeCap other w) :
    (ctor_copy this other w).Holds (SizeLeCap other) ∧
    ∀ w1, ctor_copy this other w = .ok w1 → SizeLeCap this w1 := by
  unfold SizeLeCap size capacity at *
  have he1 : other ≠ this := fun e => hne e.symm
  unfold ctor_copy
  simp only [print_objs]
  have hobj := new_array_objs (w.objs other).capacity_
    (w.print "Copy constructor called.\n")
  rcases hn : new_array (w.objs other).capacity_
    (w.print "Copy constructor called.\n") with ⟨_ | a, w2⟩
  · rw [hn] at hobj
    simp only [print_objs] at hobj
    simp only [Outcome.Holds, hobj]
    exact ⟨ho, fun _ h => by cases h⟩
  · rw [hn] at hobj
    simp only [print_objs] at hobj
    simp only [setObj_objs_self, setObj_objs, if_neg he1]
    rcases hc : copy_elems (w2.objs other).data_ (some a) (w2.objs other).size_
      (w2.setObj this { (w2.objs this) with data_ := some a }) with _ | w4
    · exact ⟨trivial, fun _ h => by cases h⟩
    · simp only [Outcome.Holds, setObj_objs_self, setObj_objs, if_neg he1,
        copy_elems_objs _ hc, hobj]
      refine ⟨ho, ?_⟩
      intro w1 h
      simp only [Outcome.ok.injEq] at h
      rw [← h]
      simp only [setObj_objs_self, setObj_objs, if_neg he1, copy_elems_objs _ hc, hobj]
      exact ho

theorem ctor_capacity_inv [Inhabited α] (this n : Nat) (w w1 : World α)
    (h : ctor_capacity this n w = .ok w1) : SizeLeCap this w1 := by
  unfold ctor_capacity at h
  unfold SizeLeCap size capacity
  split at h
  · simp only [Outcome.ok.injEq] at h
    rw [← h]; simp
  · split at h
    · cases h
    · simp only [Outcome.ok.injEq] at h
      rw [← h]; simp

theorem ctor_capacity_ok [Inhabited α] (this n : Nat) (w : World α) (hnf : NoFail w) :
    ∃ w1, ctor_capacity this n w = .ok w1 := by
  unfold ctor_capacity
  by_cases h : n = 0
  · rw [if_pos h]; exact ⟨_, rfl⟩
  · rw [if_neg h]
    obtain ⟨w1, hn, -⟩ := new_array_ok n w hnf
    rw [hn]; exact ⟨_, rfl⟩

theorem resize_total [Inhabited α] (this nc : Nat) (w : World α) (hv : Valid this w)
    (hnf : NoFail w) : ∃ w1, resize this nc w = .ok w1 := by
  obtain ⟨b, hb, hl⟩ := valid_buf hv
  have hle := hv.1
  by_cases h : nc ≤ (w.objs this).size_
  · exact ⟨w, resize_noop this nc w h⟩
  · obtain ⟨w1, hr, -⟩ := resize_ok this nc w hnf hb (by omega) (by omega)
    exact ⟨w1, hr⟩

/-! ## Allocation failure -/

theorem resize_alloc_fail [Inhabited α] (this nc : Nat) (w : World α) (rest : List Bool)
    (hf : w.allocFails = true :: rest) (hnc : (w.objs this).size_ < nc) :
    ∃ w1, resize this nc w = .threw .bad_alloc w1 ∧ w1.objs = w.objs ∧
      w1.blocks = w.blocks ∧ w1.allocFails = rest := by
  refine ⟨{ (w.print ("Resizing from " ++ toString (w.objs this).capacity_ ++ " to " ++
    toString nc ++ "\n")) with allocFails := rest }, ?_, rfl, rfl, rfl⟩
  unfold resize
  rw [if_neg (by omega)]
  simp only []
  rw [new_array_fail nc _ rest (by simpa using hf)]

theorem assign_copy_alloc_fail [Inhabited α] (this other : Nat) (w : World α)
    (rest : List Bool) (hne : this ≠ other) {bt : List α}
    (hbt : bufAt w.blocks (w.objs this).data_ = some bt)
    (hfail : w.allocFails = true :: rest) :
    ∃ w1, assign_copy this other w = .threw .bad_alloc w1 ∧ w1.objs = w.objs ∧
      (∀ a, (w.objs this).data_ = some a → bufAt w1.blocks (some a) = none) ∧
      ∀ q, (q = none ∨ q ≠ (w.objs this).data_) → bufAt w1.blocks q = bufAt w.blocks q := by
  obtain ⟨wd, hdel, had, hod, -, hdead, hfrd⟩ := delete_array_ok
    (w := w.print "Copy assignment operator called.\n") (p := (w.objs this).data_) hbt
  simp only [print_blocks, print_objs, print_allocFails] at had hod hfrd hdead
  refine ⟨{ wd with allocFails := rest }, ?_, hod, ?_, hfrd⟩
  · unfold assign_copy
    simp only [if_neg hne, print_objs, hdel]
    rw [new_array_fail _ wd rest (by rw [had]; exact hfail)]
  · intro a ha
    have := hdead a ha
    rw [ha] at this
    exact this

/-! ## Growth of the capacity along a run of pushes -/

theorem push_back_transfers_eq [Inhabited α] (this : Nat) (w : World α) (hv : Valid this w)
    (hnf : NoFail w)
    (hov : (w.objs this).size_ = (w.objs this).capacity_ →
      (w.objs this).capacity_ * 2 < SIZE_MOD) :
    push_back_transfers this w =
      if (w.objs this).size_ = (w.objs this).capacity_ then (w.objs this).size_ else 0 := by
  have hle := hv.1
  unfold push_back_transfers
  by_cases hfull : (w.objs this).size_ = (w.objs this).capacity_
  · rw [if_pos (by omega), if_pos hfull]
    unfold resize_transfers
    have hnc : ¬ (if (w.objs this).capacity_ = 0 then 1
        else (w.objs this).capacity_ * 2 % SIZE_MOD) ≤ (w.objs this).size_ := by
      split
      · omega
      · rw [Nat.mod_eq_of_lt (hov hfull)]; omega
    rw [if_neg hnc]
    obtain ⟨w1, hn, -, ho, -⟩ := new_array_ok
      (if (w.objs this).capacity_ = 0 then 1 else (w.objs this).capacity_ * 2 % SIZE_MOD) w hnf
    rw [hn]
    simp only [ho]
  · rw [if_neg (by omega), if_neg hfull]

theorem doubled_step {s c s1 c1 : Nat} (hs : s1 = s + 1)
    (hc : c1 = if s = c then (if c = 0 then 1 else c * 2) else c)
    (h : (s = 0 ∧ c = 0) ∨ ∃ k, c = 2 ^ k ∧ s ≤ c ∧ c < 2 * s) :
    (s1 = 0 ∧ c1 = 0) ∨ ∃ k, c1 = 2 ^ k ∧ s1 ≤ c1 ∧ c1 < 2 * s1 := by
  right
  rcases h with ⟨h1, h2⟩ | ⟨k, hk, h1, h2⟩
  · refine ⟨0, ?_, ?_, ?_⟩ <;> simp [hc, hs, h1, h2]
  · have hpos : 0 < 2 ^ k := Nat.two_pow_pos k
    by_cases hf : s = c
    · refine ⟨k + 1, ?_, ?_, ?_⟩
      · rw [hc, if_pos hf, if_neg (by omega), hk, Nat.pow_succ]
      · rw [hc, if_pos hf, if_neg (by omega)]; omega
      · rw [hc, if_pos hf, if_neg (by omega)]; omega
    · refine ⟨k, ?_, ?_, ?_⟩
      · rw [hc, if_neg hf, hk]
      · rw [hc, if_neg hf]; omega
      · rw [hc, if_neg hf]; omega

theorem valid_of_empty {this : Nat} {w : World α} (h : w.objs this = ⟨none, 0, 0⟩) :
    Valid this w := by
  refine ⟨?_, ?_, ?_⟩
  · rw [h]
  · rw [h]; simp [SIZE_MOD]
  · rw [h]; rfl

/-- Along a run of pushes the transfers are paid for by the growth of the
capacity, and the doubling shape is kept. -/
theorem push_all_growth [Inhabited α] (this : Nat) : ∀ (xs : List α) (w : World α),
    Valid this w → NoFail w → (w.objs this).size_ + xs.length ≤ SIZE_MOD / 2 →
    ∃ w1, push_all this xs w = .ok w1 ∧
      push_all_transfers this xs w + (w.objs this).capacity_ ≤ (w1.objs this).capacity_ ∧
      (Doubled this w → Doubled this w1) := by
  intro xs
  induction xs with
  | nil =>
    intro w _ _ _
    exact ⟨w, rfl, by simp [push_all_transfers], fun h => h⟩
  | cons x xs ih =>
    intro w hv hnf hN
    simp only [List.length_cons] at hN
    have hov : (w.objs this).size_ = (w.objs this).capacity_ →
        (w.objs this).capacity_ * 2 < SIZE_MOD := by
      intro h; unfold SIZE_MOD at *; omega
    obtain ⟨w1, hp, hnf1, hv1, hs1, hc1, -⟩ := push_back_ok this x w hv hnf hov
    obtain ⟨w2, hp2, ht2, hd2⟩ := ih w1 hv1 hnf1 (by rw [hs1]; omega)
    refine ⟨w2, ?_, ?_, ?_⟩
    · simp only [push_all, hp, hp2]
    · simp only [push_all_transfers, hp, push_back_transfers_eq this w hv hnf hov]
      have : (if (w.objs this).size_ = (w.objs this).capacity_ then (w.objs this).size_ else 0) +
          (w.objs this).capacity_ ≤ (w1.objs this).capacity_ := by
        rw [hc1]
        by_cases hf : (w.objs this).size_ = (w.objs this).capacity_
        · rw [if_pos hf, if_pos hf]; split <;> omega
        · rw [if_neg hf, if_neg hf]; omega
      omega
    · intro hd
      exact hd2 (doubled_step hs1 hc1 hd)

theorem pow_two_least {k n : Nat} (h1 : 2 ^ k < 2 * n) :
    ∀ j, n ≤ 2 ^ j → 2 ^ k ≤ 2 ^ j := by
  intro j hj
  by_contra hc
  have hlt : 2 ^ j < 2 ^ k := by omega
  have hjk : j < k := (Nat.pow_lt_pow_iff_right (by omega)).mp hlt
  have : 2 ^ (j + 1) ≤ 2 ^ k := Nat.pow_le_pow_right (by omega) hjk
  rw [Nat.pow_succ] at this
  omega

/-! ## Rendering -/

theorem intercalate_go_append (sep a : String) : ∀ (l : List String) (acc : String),
    String.intercalate.go acc sep (l ++ [a]) = String.intercalate.go acc sep l ++ sep ++ a := by
  intro l
  induction l with
  | nil => intro acc; simp [String.intercalate.go]
  | cons b l ih => intro acc; simp [String.intercalate.go, ih]

theorem intercalate_append_singleton (sep a b : String) (l : List String) :
    sep.intercalate ((b :: l) ++ [a]) = sep.intercalate (b :: l) ++ sep ++ a := by
  simp only [List.cons_append, String.intercalate]
  exact intercalate_go_append sep a l b

theorem intercalate_take_succ (sep r : String) (rs : List String) (k : Nat)
    (hr : rs[k + 1]? = some r) :
    sep.intercalate (rs.take (k + 2)) = sep.intercalate (rs.take (k + 1)) ++ sep ++ r := by
  have hk : k + 1 < rs.length := by
    by_contra h
    rw [List.getElem?_eq_none (by omega)] at hr
    cases hr
  have h1 : rs.take (k + 2) = rs.take (k + 1) ++ [r] := by
    rw [List.take_succ, hr]; rfl
  rw [h1]
  rcases ht : rs.take (k + 1) with _ | ⟨b, l⟩
  · have : (rs.take (k + 1)).length = k + 1 := by simp; omega
    rw [ht] at this; simp at this
  · exact intercalate_append_singleton sep _ b l

theorem intercalate_take_one (sep r : String) (rs : List String) (hr : rs[0]? = some r) :
    sep.intercalate (rs.take 1) = r := by
  cases rs with
  | nil => simp at hr
  | cons a l =>
    simp only [List.getElem?_cons_zero, Option.some.injEq] at hr
    subst hr
    simp [String.intercalate, String.intercalate.go]

theorem wrap_pred {n : Nat} (h0 : 0 < n) (h1 : n < SIZE_MOD) :
    (n + SIZE_MOD - 1) % SIZE_MOD = n - 1 := by
  have : n + SIZE_MOD - 1 = (n - 1) + SIZE_MOD := by omega
  rw [this, Nat.add_mod_right, Nat.mod_eq_of_lt (by omega)]

/-- The text after `k + 1` rounds of the element loop. -/
theorem print_elems_spec (render : α → String) (vec : Nat) (w : World α) (os : String)
    (hv : Valid vec w) : ∀ k, k < (w.objs vec).size_ →
    print_elems render vec w (k + 1) os =
      some (os ++ ", ".intercalate (((elems vec w).map render).take (k + 1)) ++
        (if k + 1 < (w.objs vec).size_ then ", " else "")) := by
  have hlen := elems_length hv
  have hM : (w.objs vec).size_ < SIZE_MOD := Nat.lt_of_le_of_lt hv.1 hv.2.1
  have hload : ∀ i, i < (w.objs vec).size_ →
      ∃ e, load (index_const vec i w) w = some e ∧
        ((elems vec w).map render)[i]? = some (render e) := by
    intro i hi
    obtain ⟨e, he⟩ := load_some_of_valid hv i hi
    refine ⟨e, he, ?_⟩
    have h1 : (elems vec w)[i]? = some e := by rw [← load_index hv i hi]; exact he
    simp [h1]
  have hcond : ∀ i, i < (w.objs vec).size_ →
      (i < (size vec w + SIZE_MOD - 1) % SIZE_MOD ↔ i + 1 < (w.objs vec).size_) := by
    intro i hi
    unfold size
    rw [wrap_pred (by omega) hM]; omega
  intro k
  induction k with
  | zero =>
    intro h0
    obtain ⟨e, he, hr⟩ := hload 0 h0
    simp only [print_elems, he, hcond 0 h0, Nat.zero_add]
    rw [intercalate_take_one ", " _ _ hr]
    split <;> simp [String.append_assoc]
  | succ k ih =>
    intro hk
    have ihk := ih (by omega)
    rw [if_pos hk] at ihk
    obtain ⟨e, he, hr⟩ := hload (k + 1) hk
    rw [print_elems, ihk]
    simp only [he, hcond (k + 1) hk]
    rw [intercalate_take_succ ", " _ _ k hr]
    split <;> simp [String.append_assoc]

/-! ## The claims -/

/-- C2: `size() <= capacity()` is an invariant.  It holds after default
construction and after construction with a requested capacity; and in
whichever state an operation ends, by returning or by throwing, it holds of
the objects involved when it held of them before: copy construction (source
and new object), move construction (source and new object), copy and move
assignment (source and destination), `pop_back`, `resize`, and, on a valid
container, `push_back` in both overloads, however the argument is passed.  The
operations do return when the
objects are valid, do not share a buffer, no allocation fails and twice the
capacity is representable. -/
theorem size_le_capacity_invariant [Inhabited α] (this other : Nat) (w : World α) (x : α)
    (n nc : Nat) :
    (∃ w1, ctor_default this w = .ok w1 ∧ SizeLeCap this w1) ∧
    (∀ w1, ctor_capacity this n w = .ok w1 → SizeLeCap this w1) ∧
    (this ≠ other → SizeLeCap other w →
      (ctor_copy this other w).Holds (SizeLeCap other) ∧
      (∀ w1, ctor_copy this other w = .ok w1 → SizeLeCap this w1) ∧
      (∃ w1, ctor_move this other w = .ok w1 ∧ SizeLeCap this w1 ∧ SizeLeCap other w1)) ∧
    (SizeLeCap this w → SizeLeCap other w →
      (assign_copy this other w).Holds (fun w1 => SizeLeCap this w1 ∧ SizeLeCap other w1) ∧
      (assign_move this other w).Holds (fun w1 => SizeLeCap this w1 ∧ SizeLeCap other w1)) ∧
    (SizeLeCap this w →
      (pop_back this w).Holds (SizeLeCap this) ∧ (resize this nc w).Holds (SizeLeCap this)) ∧
    (Valid this w → ∀ value : Arg α,
      (push_back this value w).Holds (SizeLeCap this) ∧
      (push_back_rv this value w).Holds (SizeLeCap this)) ∧
    (this ≠ other → NoFail w → Valid this w → Valid other w → Separate this other w →
      capacity this w * 2 < SIZE_MOD →
      (∃ w1, ctor_capacity this n w = .ok w1) ∧ (∃ w1, ctor_copy this other w = .ok w1) ∧
      (∃ w1, assign_copy this other w = .ok w1) ∧ (∃ w1, assign_move this other w = .ok w1) ∧
      (∃ w1, push_back this (.val x) w = .ok w1) ∧
      (∃ w1, push_back_rv this (.val x) w = .ok w1) ∧ (∃ w1, pop_back this w = .ok w1) ∧
      (∃ w1, resize this nc w = .ok w1)) := by
  refine ⟨?_, ?_, ?_, ?_, ?_, ?_, ?_⟩
  · exact ⟨_, rfl, by simp [SizeLeCap, size, capacity]⟩
  · exact fun w1 h => ctor_capacity_inv this n w w1 h
  · intro hne ho
    obtain ⟨w1, hm, h1, h2, -⟩ := ctor_move_ok this other w hne
    refine ⟨(ctor_copy_inv this other w hne ho).1, (ctor_copy_inv this other w hne ho).2,
      w1, hm, ?_, ?_⟩
    · unfold SizeLeCap size capacity at *; rw [h1]; exact ho
    · unfold SizeLeCap size capacity; rw [h2]
  · intro ht ho
    exact ⟨assign_copy_inv this other w ht ho, assign_move_inv this other w ht ho⟩
  · intro ht
    exact ⟨pop_back_inv this w ht, resize_inv this nc w ht⟩
  · intro hv value
    exact ⟨push_back_inv this value w hv,
      by rw [push_back_rv_eq]; exact push_back_inv this value w hv⟩
  · intro hne hnf hvt hvo hsep hrep
    obtain ⟨bt, hbt, -⟩ := valid_buf hvt
    refine ⟨ctor_capacity_ok this n w hnf, ?_, ?_, ?_, ?_, ?_, ?_,
      resize_total this nc w hvt hnf⟩
    · obtain ⟨w1, h, -⟩ := ctor_copy_ok this other w hne hvo hnf
      exact ⟨w1, h⟩
    · obtain ⟨w1, h, -⟩ := assign_copy_ok this other w hne hvt hvo hsep hnf
      exact ⟨w1, h⟩
    · obtain ⟨w1, h, -⟩ := assign_move_ok this other w hne hbt
      exact ⟨w1, h⟩
    · obtain ⟨w1, h, -⟩ := push_back_ok this x w hvt hnf (fun _ => hrep)
      exact ⟨w1, h⟩
    · obtain ⟨w1, h, -⟩ := push_back_ok this x w hvt hnf (fun _ => hrep)
      exact ⟨w1, by rw [push_back_rv_eq]; exact h⟩
    · by_cases hpos : 0 < (w.objs this).size_
      · obtain ⟨w1, h, -⟩ := pop_back_ok this w hvt hnf hpos
        exact ⟨w1, h⟩
      · exact ⟨w, pop_back_empty this w (by omega)⟩

/-- Witness for C2: the operations applied to objects `1` (full, two
elements) and `0` of `sampleSmall`. -/
theorem size_le_capacity_invariant_witness :
    (SizeLeCap 1 sampleSmall ∧ SizeLeCap 0 sampleSmall ∧ Valid 1 sampleSmall ∧
      Valid 0 sampleSmall ∧ NoFail sampleSmall ∧ Separate 1 0 sampleSmall ∧
      capacity 1 sampleSmall * 2 < SIZE_MOD) ∧
    ((ctor_copy 1 0 sampleSmall).Holds (SizeLeCap 0) ∧
      (∀ w1, ctor_copy 1 0 sampleSmall = .ok w1 → SizeLeCap 1 w1) ∧
      (∃ w1, ctor_move 1 0 sampleSmall = .ok w1 ∧ SizeLeCap 1 w1 ∧ SizeLeCap 0 w1)) ∧
    ((assign_copy 1 0 sampleSmall).Holds (fun w1 => SizeLeCap 1 w1 ∧ SizeLeCap 0 w1) ∧
      (assign_move 1 0 sampleSmall).Holds (fun w1 => SizeLeCap 1 w1 ∧ SizeLeCap 0 w1)) ∧
    ((pop_back 1 sampleSmall).Holds (SizeLeCap 1) ∧
      (resize 1 5 sampleSmall).Holds (SizeLeCap 1)) ∧
    (∀ value : Arg Nat, (push_back 1 value sampleSmall).Holds (SizeLeCap 1) ∧
      (push_back_rv 1 value sampleSmall).Holds (SizeLeCap 1)) ∧
    ((∃ w1, ctor_capacity 1 2 sampleSmall = .ok w1) ∧
      (∃ w1, ctor_copy 1 0 sampleSmall = .ok w1) ∧
      (∃ w1, assign_copy 1 0 sampleSmall = .ok w1) ∧
      (∃ w1, assign_move 1 0 sampleSmall = .ok w1) ∧
      (∃ w1, push_back 1 (.val 4) sampleSmall = .ok w1) ∧
      (∃ w1, push_back_rv 1 (.val 4) sampleSmall = .ok w1) ∧
      (∃ w1, pop_back 1 sampleSmall = .ok w1) ∧
      (∃ w1, resize 1 5 sampleSmall = .ok w1)) :=
  ⟨⟨by decide, by decide, by decide, by decide, by decide, by decide, by decide⟩,
    (size_le_capacity_invariant 1 0 sampleSmall 4 2 5).2.2.1 (by decide) (by decide),
    (size_le_capacity_invariant 1 0 sampleSmall 4 2 5).2.2.2.1 (by decide) (by decide),
    (size_le_capacity_invariant 1 0 sampleSmall 4 2 5).2.2.2.2.1 (by decide),
    (size_le_capacity_invariant 1 0 sampleSmall 4 2 5).2.2.2.2.2.1 (by decide),
    (size_le_capacity_invariant 1 0 sampleSmall 4 2 5).2.2.2.2.2.2 (by decide) (by decide)
      (by decide) (by decide) (by decide) (by decide)⟩

/-- C3: on a valid container with twice the capacity representable in
`size_t`, whenever `push_back` (either overload, however the argument is
passed) returns, the capacity has changed if and only if `size == capacity`
held before the call, the new capacity is then `max(1, 2 * old capacity)`,
and it is unchanged when `size < capacity`.  When no allocation fails the
capacity check returns, in a state with that capacity already, and the call
returns if and only if the argument can be read in that state; it does so
whenever it is handed a value, or an argument that reads a value and either
the container is not full or the argument lies outside its buffer. -/
theorem push_back_capacity [Inhabited α] (this : Nat) (value : Arg α) (w : World α)
    (hv : Valid this w) (hnf : NoFail w) (hrep : capacity this w * 2 < SIZE_MOD) :
    (∀ w1, push_back this value w = .ok w1 ∨ push_back_rv this value w = .ok w1 →
      (capacity this w1 ≠ capacity this w ↔ size this w = capacity this w) ∧
      (size this w = capacity this w → capacity this w1 = max 1 (capacity this w * 2)) ∧
      (size this w < capacity this w → capacity this w1 = capacity this w)) ∧
    (∃ wg, push_back_grow this w = .ok wg ∧
      (capacity this wg ≠ capacity this w ↔ size this w = capacity this w) ∧
      (size this w = capacity this w → capacity this wg = max 1 (capacity this w * 2)) ∧
      (size this w < capacity this w → capacity this wg = capacity this w) ∧
      ((∃ w1, push_back this value w = .ok w1) ↔ ∃ x, value.read wg = some x) ∧
      ((∃ w1, push_back_rv this value w = .ok w1) ↔ ∃ x, value.read wg = some x)) ∧
    (∀ x, ∃ w1, push_back this (.val x) w = .ok w1 ∧ push_back_rv this (.val x) w = .ok w1) ∧
    (∀ x, value.read w = some x →
      size this w < capacity this w ∨ value.Outside this w →
      ∃ w1, push_back this value w = .ok w1 ∧ push_back_rv this value w = .ok w1) := by
  unfold capacity size at *
  have hrule : ∀ c1 : Nat,
      c1 = (if (w.objs this).size_ = (w.objs this).capacity_ then
          (if (w.objs this).capacity_ = 0 then 1 else (w.objs this).capacity_ * 2)
         else (w.objs this).capacity_) →
      (c1 ≠ (w.objs this).capacity_ ↔ (w.objs this).size_ = (w.objs this).capacity_) ∧
      ((w.objs this).size_ = (w.objs this).capacity_ →
        c1 = max 1 ((w.objs this).capacity_ * 2)) ∧
      ((w.objs this).size_ < (w.objs this).capacity_ → c1 = (w.objs this).capacity_) := by
    intro c1 hc1
    refine ⟨?_, ?_, ?_⟩
    · rw [hc1]
      by_cases h : (w.objs this).size_ = (w.objs this).capacity_
      · rw [if_pos h]; split <;> simp only [h, iff_true] <;> omega
      · rw [if_neg h]; simp [h]
    · intro h; rw [hc1, if_pos h]; split <;> omega
    · intro h; rw [hc1, if_neg (by omega)]
  have hval : ∀ x, ∃ w1, push_back this (.val x) w = .ok w1 ∧
      (w1.objs this).capacity_ =
        (if (w.objs this).size_ = (w.objs this).capacity_ then
          (if (w.objs this).capacity_ = 0 then 1 else (w.objs this).capacity_ * 2)
         else (w.objs this).capacity_) := by
    intro x
    obtain ⟨w1, hp, -, -, -, hc1, -⟩ := push_back_ok this x w hv hnf (fun _ => hrep)
    exact ⟨w1, hp, hc1⟩
  rcases push_back_grow_cases this w hv (fun _ => hrep) with
    ⟨wg, -, hno, -⟩ | ⟨wg, hg, -, -, -, -, hcg, -, -⟩
  · exact absurd hnf hno
  have hret : (∃ w1, push_back this value w = .ok w1) ↔ ∃ x, value.read wg = some x := by
    constructor
    · rintro ⟨w1, h1⟩
      rcases hr : value.read wg with _ | x
      · rw [push_back_ub_of_unreadable this value w wg hg hr] at h1; cases h1
      · exact ⟨x, rfl⟩
    · rintro ⟨x, hr⟩
      obtain ⟨w1, hp, -⟩ := hval x
      exact ⟨w1, by rw [push_back_of_read this value x w wg hg hr]; exact hp⟩
  refine ⟨?_, ⟨wg, hg, (hrule _ hcg).1, (hrule _ hcg).2.1, (hrule _ hcg).2.2, hret,
    by rw [push_back_rv_eq]; exact hret⟩, ?_, ?_⟩
  · intro w1 h1
    rw [push_back_rv_eq, or_self] at h1
    rcases hr : value.read wg with _ | x
    · rw [push_back_ub_of_unreadable this value w wg hg hr] at h1; cases h1
    · rw [push_back_of_read this value x w wg hg hr] at h1
      obtain ⟨w2, hp, hc2⟩ := hval x
      rw [hp] at h1
      cases h1
      exact hrule _ hc2
  · intro x
    obtain ⟨w1, hp, -⟩ := hval x
    exact ⟨w1, hp, by rw [push_back_rv_eq]; exact hp⟩
  · intro x hr hsafe
    obtain ⟨w1, hp, -⟩ := hval x
    have h := push_back_of_safe this value x w hv (fun _ => hrep) hr hsafe
    exact ⟨w1, by rw [h]; exact hp, by rw [push_back_rv_eq, h]; exact hp⟩

/-- Witness for C3: a push onto the full object `1` of `sampleSmall`, handed
element 0 of object `0`. -/
theorem push_back_capacity_witness :
    Valid 1 sampleSmall ∧ NoFail sampleSmall ∧ capacity 1 sampleSmall * 2 < SIZE_MOD ∧
    (Arg.cell (index 0 0 sampleSmall)).read sampleSmall = some 7 ∧
    (Arg.cell (index 0 0 sampleSmall)).Outside 1 sampleSmall ∧
    (∃ w1, push_back 1 (.cell (index 0 0 sampleSmall)) sampleSmall = .ok w1 ∧
      push_back_rv 1 (.cell (index 0 0 sampleSmall)) sampleSmall = .ok w1) ∧
    (∀ w1, push_back 1 (.cell (index 0 0 sampleSmall)) sampleSmall = .ok w1 ∨
        push_back_rv 1 (.cell (index 0 0 sampleSmall)) sampleSmall = .ok w1 →
      (capacity 1 w1 ≠ capacity 1 sampleSmall ↔ size 1 sampleSmall = capacity 1 sampleSmall) ∧
      (size 1 sampleSmall = capacity 1 sampleSmall →
        capacity 1 w1 = max 1 (capacity 1 sampleSmall * 2)) ∧
      (size 1 sampleSmall < capacity 1 sampleSmall →
        capacity 1 w1 = capacity 1 sampleSmall)) :=
  ⟨by decide, by decide, by decide, rfl, by decide,
    (push_back_capacity 1 (.cell (index 0 0 sampleSmall)) sampleSmall (by decide) (by decide)
      (by decide)).2.2.2 7 rfl (Or.inr (by decide)),
    (push_back_capacity 1 (.cell (index 0 0 sampleSmall)) sampleSmall (by decide) (by decide)
      (by decide)).1⟩

/-- C4: on a valid, non-empty container, with no allocation failing, `pop_back`
returns; it moves the elements to a new buffer exactly when the decremented
size equals `capacity / 4`; the capacity is then `max(1, capacity / 2)` (the
guard of `resize` does not cancel the reallocation) and otherwise it is
unchanged; the capacity never becomes 0, and a container with one element and
capacity 1, 2 or 3 ends with capacity 1. -/
theorem pop_back_capacity [Inhabited α] (this : Nat) (w : World α)
    (hv : Valid this w) (hnf : NoFail w) (hpos : 0 < size this w) :
    ∃ w1, pop_back this w = .ok w1 ∧
      ((w1.objs this).data_ ≠ (w.objs this).data_ ↔ size this w - 1 = capacity this w / 4) ∧
      (size this w - 1 = capacity this w / 4 →
        capacity this w1 = max 1 (capacity this w / 2)) ∧
      (size this w - 1 ≠ capacity this w / 4 → capacity this w1 = capacity this w) ∧
      0 < capacity this w1 ∧
      (size this w = 1 → capacity this w ≤ 3 → capacity this w1 = 1) := by
  unfold capacity size at *
  obtain ⟨b, hb, -⟩ := valid_buf hv
  have hle := hv.1
  obtain ⟨w1, hp, -, -, -, hc1, hd1, -⟩ := pop_back_ok this w hv hnf hpos
  have hfresh : (w.objs this).data_ ≠ some w.blocks.length := by
    intro e; rw [e, bufAt_fresh] at hb; cases hb
  refine ⟨w1, hp, ?_, ?_, ?_, ?_, ?_⟩
  · rw [hd1]
    by_cases h : (w.objs this).size_ - 1 = (w.objs this).capacity_ / 4
    · simp only [if_pos h, h, iff_true]
      exact fun e => hfresh e.symm
    · simp [if_neg h, h]
  · intro h; rw [hc1, if_pos h]
  · intro h; rw [hc1, if_neg h]
  · rw [hc1]; split <;> omega
  · intro h1 h3
    rw [hc1, if_pos (by omega)]
    omega

/-- Witness for C4: popping the only element of object `0` of `sampleSmall`
(capacity 3). -/
theorem pop_back_capacity_witness :
    Valid 0 sampleSmall ∧ NoFail sampleSmall ∧ 0 < size 0 sampleSmall ∧
    ∃ w1, pop_back 0 sampleSmall = .ok w1 ∧
      ((w1.objs 0).data_ ≠ (sampleSmall.objs 0).data_ ↔
        size 0 sampleSmall - 1 = capacity 0 sampleSmall / 4) ∧
      (size 0 sampleSmall - 1 = capacity 0 sampleSmall / 4 →
        capacity 0 w1 = max 1 (capacity 0 sampleSmall / 2)) ∧
      (size 0 sampleSmall - 1 ≠ capacity 0 sampleSmall / 4 →
        capacity 0 w1 = capacity 0 sampleSmall) ∧
      0 < capacity 0 w1 ∧
      (size 0 sampleSmall = 1 → capacity 0 sampleSmall ≤ 3 → capacity 0 w1 = 1) :=
  ⟨by decide, by decide, by decide,
    pop_back_capacity 0 sampleSmall (by decide) (by decide) (by decide)⟩

/-- C5: on a valid, non-empty container, with no allocation failing, `pop_back`
returns with the size decreased by exactly 1, and every index below the new
size still designates the element it designated before the call, whether or
not the elements were moved to a smaller buffer. -/
theorem pop_back_keeps_elements [Inhabited α] (this : Nat) (w : World α)
    (hv : Valid this w) (hnf : NoFail w) (hpos : 0 < size this w) :
    ∃ w1, pop_back this w = .ok w1 ∧ size this w1 + 1 = size this w ∧
      ∀ i, i < size this w1 →
        ∃ v, load (index this i w) w = some v ∧ load (index this i w1) w1 = some v := by
  unfold size at *
  obtain ⟨w1, hp, -, hv1, hs1, -, -, he1, -⟩ := pop_back_ok this w hv hnf hpos
  refine ⟨w1, hp, by omega, ?_⟩
  intro i hi
  have hlen := elems_length hv
  have hi0 : i < (elems this w).length := by omega
  refine ⟨(elems this w)[i], ?_, ?_⟩
  · rw [load_index hv i (by omega), List.getElem?_eq_getElem hi0]
  · rw [load_index hv1 i hi, he1, List.getElem?_take_of_lt (by omega),
      List.getElem?_eq_getElem hi0]

/-- Witness for C5: a pop on object `0` of `sample5` (no shrink). -/
theorem pop_back_keeps_elements_witness :
    Valid 0 sample5 ∧ NoFail sample5 ∧ 0 < size 0 sample5 ∧
    ∃ w1, pop_back 0 sample5 = .ok w1 ∧ size 0 w1 + 1 = size 0 sample5 ∧
      ∀ i, i < size 0 w1 →
        ∃ v, load (index 0 i sample5) sample5 = some v ∧ load (index 0 i w1) w1 = some v :=
  ⟨by decide, by decide, by decide,
    pop_back_keeps_elements 0 sample5 (by decide) (by decide) (by decide)⟩

/-- C6: for every container state and every index, both overloads of `at` fail
with the out-of-range error if and only if `index >= size()` (hence for every
index when the container is empty), and for `index < size()` they return the
reference that the unchecked `operator[]` returns. -/
theorem at_checks_bounds (this i : Nat) (w : World α) :
    (at_ this i w = .error .out_of_range ↔ size this w ≤ i) ∧
    (at_const this i w = .error .out_of_range ↔ size this w ≤ i) ∧
    (i < size this w →
      at_ this i w = .ok (index this i w) ∧ at_const this i w = .ok (index_const this i w)) ∧
    (size this w = 0 →
      at_ this i w = .error .out_of_range ∧ at_const this i w = .error .out_of_range) := by
  unfold at_ at_const index index_const size
  refine ⟨?_, ?_, ?_, ?_⟩
  · split <;> simp_all
  · split <;> simp_all
  · intro h
    simp [Nat.not_le.mpr h]
  · intro h
    simp [h]

/-- Witness for C6: index 2 is in range and index 5 is not, for object `0` of
`sample5`. -/
theorem at_checks_bounds_witness :
    (at_ 0 2 sample5 = .ok (index 0 2 sample5) ∧
      at_const 0 2 sample5 = .ok (index_const 0 2 sample5)) ∧
    at_ 0 5 sample5 = .error .out_of_range :=
  ⟨(at_checks_bounds 0 2 sample5).2.2.1 (by decide),
    (at_checks_bounds 0 5 sample5).1.mpr (by decide)⟩

/-- C7: for a valid source and no allocation failing, copy construction, and
copy assignment to a distinct valid destination that does not share the
source's buffer, return with a destination whose size and capacity equal the
source's (so capacity >= size) and whose element at every index below the size
equals the source's; the source keeps its fields, size, capacity and elements. -/
theorem copy_duplicates [Inhabited α] (this other : Nat) (w : World α) (hne : this ≠ other)
    (hv : Valid other w) (hnf : NoFail w) :
    (∃ w1, ctor_copy this other w = .ok w1 ∧ IsCopy this other w w1) ∧
    (Valid this w → Separate this other w →
      ∃ w1, assign_copy this other w = .ok w1 ∧ IsCopy this other w w1) := by
  obtain ⟨b, hb, -⟩ := valid_buf hv
  constructor
  · obtain ⟨w1, hc, -, hv1, ho, hoth, he, hfr⟩ := ctor_copy_ok this other w hne hv hnf
    exact ⟨w1, hc, isCopy_of hne hv hv1 ho hoth he (by rw [hb]; exact hfr _ _ hb)⟩
  · intro hvt hsep
    obtain ⟨w1, hc, -, hv1, ho, hoth, he, hfr⟩ :=
      assign_copy_ok this other w hne hvt hv hsep hnf
    have hq : (w.objs other).data_ = none ∨ (w.objs other).data_ ≠ (w.objs this).data_ := by
      rcases hsep with h | h
      · by_cases h1 : (w.objs other).data_ = none
        · exact Or.inl h1
        · exact Or.inr (by rw [h]; exact h1)
      · exact Or.inr (fun e => h e.symm)
    exact ⟨w1, hc, isCopy_of hne hv hv1 ho hoth he (by rw [hb]; exact hfr _ _ hb hq)⟩

/-- Witness for C7: object `1` of `sample5` (empty) becomes a copy of object `0`,
by construction and by assignment. -/
theorem copy_duplicates_witness :
    Valid 0 sample5 ∧ NoFail sample5 ∧ Valid 1 sample5 ∧ Separate 1 0 sample5 ∧
    (∃ w1, ctor_copy 1 0 sample5 = .ok w1 ∧ IsCopy 1 0 sample5 w1) ∧
    (∃ w1, assign_copy 1 0 sample5 = .ok w1 ∧ IsCopy 1 0 sample5 w1) :=
  ⟨by decide, by decide, by decide, by decide,
    (copy_duplicates 1 0 sample5 (by decide) (by decide) (by decide)).1,
    (copy_duplicates 1 0 sample5 (by decide) (by decide) (by decide)).2
      (by decide) (by decide)⟩

/-- C8: after `b` has been made a copy of a valid container `a` (by copy
construction, or by copy assignment to a valid `b` that did not share `a`'s
buffer), `b` owns a buffer distinct from `a`'s, and whichever way a mutation
of `b` ends (`push_back`, `pop_back`, an assignment through `operator[]` or
`at` at an index below the size), `a` has the `size()`, the `capacity()` and
the element at every index below `size()` that it had before the copy. -/
theorem copy_independence [Inhabited α] (a b : Nat) (w : World α) (x : α) (i : Nat)
    (hne : b ≠ a) (hva : Valid a w) (hnf : NoFail w) :
    (∃ w1, ctor_copy b a w = .ok w1 ∧ MutationsLeave a b w w1 x i) ∧
    (Valid b w → Separate b a w →
      ∃ w1, assign_copy b a w = .ok w1 ∧ MutationsLeave a b w w1 x i) := by
  obtain ⟨c, hc, -⟩ := valid_buf hva
  constructor
  · obtain ⟨w1, hcp, hnf1, hv1, ho, hoth, -, hfr⟩ := ctor_copy_ok b a w hne hva hnf
    exact ⟨w1, hcp, mutationsLeave_of x i hne hva hv1 hnf1 ho hoth
      (by rw [hc]; exact hfr _ _ hc)⟩
  · intro hvb hsep
    obtain ⟨w1, hcp, hnf1, hv1, ho, hoth, -, hfr⟩ :=
      assign_copy_ok b a w hne hvb hva hsep hnf
    have hq : (w.objs a).data_ = none ∨ (w.objs a).data_ ≠ (w.objs b).data_ := by
      rcases hsep with h | h
      · by_cases h1 : (w.objs a).data_ = none
        · exact Or.inl h1
        · exact Or.inr (by rw [h]; exact h1)
      · exact Or.inr (fun e => h e.symm)
    exact ⟨w1, hcp, mutationsLeave_of x i hne hva hv1 hnf1 ho hoth
      (by rw [hc]; exact hfr _ _ hc hq)⟩

/-- Witness for C8: object `1` of `sample5` is made a copy of object `0` and
then mutated (value 9, index 2). -/
theorem copy_independence_witness :
    Valid 0 sample5 ∧ NoFail sample5 ∧ Valid 1 sample5 ∧ Separate 1 0 sample5 ∧
    (∃ w1, ctor_copy 1 0 sample5 = .ok w1 ∧ MutationsLeave 0 1 sample5 w1 9 2) ∧
    (∃ w1, assign_copy 1 0 sample5 = .ok w1 ∧ MutationsLeave 0 1 sample5 w1 9 2) :=
  ⟨by decide, by decide, by decide, by decide,
    (copy_independence 0 1 sample5 9 2 (by decide) (by decide) (by decide)).1,
    (copy_independence 0 1 sample5 9 2 (by decide) (by decide) (by decide)).2
      (by decide) (by decide)⟩

/-- C9: for distinct objects and a valid source, move construction, and move
assignment to a valid destination that does not share the source's buffer,
return with the destination holding the source's former size, capacity and
elements at the same indices, and the source in the empty state: null buffer,
size 0, capacity 0. -/
theorem move_transfers (this other : Nat) (w : World α) (hne : this ≠ other)
    (hv : Valid other w) :
    (∃ w1, ctor_move this other w = .ok w1 ∧ IsMoved this other w w1) ∧
    (Valid this w → Separate this other w →
      ∃ w1, assign_move this other w = .ok w1 ∧ IsMoved this other w w1) := by
  constructor
  · obtain ⟨w1, hc, ho, hoo, -, hbl, -⟩ := ctor_move_ok this other w hne
    exact ⟨w1, hc, isMoved_of hv ho hoo (by rw [hbl])⟩
  · intro hvt hsep
    obtain ⟨bt, hbt, -⟩ := valid_buf hvt
    obtain ⟨w1, hc, ho, hoo, -, -, hfr⟩ := assign_move_ok this other w hne hbt
    have hq : (w.objs other).data_ = none ∨ (w.objs other).data_ ≠ (w.objs this).data_ := by
      rcases hsep with h | h
      · by_cases h1 : (w.objs other).data_ = none
        · exact Or.inl h1
        · exact Or.inr (by rw [h]; exact h1)
      · exact Or.inr (fun e => h e.symm)
    exact ⟨w1, hc, isMoved_of hv ho hoo (hfr _ hq)⟩

/-- Witness for C9: the contents of object `0` of `sampleSmall` are moved into
object `1`, by construction and by assignment. -/
theorem move_transfers_witness :
    Valid 0 sampleSmall ∧ Valid 1 sampleSmall ∧ Separate 1 0 sampleSmall ∧
    (∃ w1, ctor_move 1 0 sampleSmall = .ok w1 ∧ IsMoved 1 0 sampleSmall w1) ∧
    (∃ w1, assign_move 1 0 sampleSmall = .ok w1 ∧ IsMoved 1 0 sampleSmall w1) :=
  ⟨by decide, by decide, by decide,
    (move_transfers 1 0 sampleSmall (by decide) (by decide)).1,
    (move_transfers 1 0 sampleSmall (by decide) (by decide)).2 (by decide) (by decide)⟩

/-- C10: copy assignment and move assignment of an object to itself return
with the object store and the free store exactly as they were: the object
keeps its buffer, size, capacity and elements, it is not reset to the empty
state and nothing is released. -/
theorem self_assignment_noop [Inhabited α] (a : Nat) (w : World α) :
    (∃ w1, assign_copy a a w = .ok w1 ∧ w1.objs = w.objs ∧ w1.blocks = w.blocks ∧
      SameView a w w1) ∧
    (∃ w1, assign_move a a w = .ok w1 ∧ w1.objs = w.objs ∧ w1.blocks = w.blocks ∧
      SameView a w w1) := by
  constructor
  · refine ⟨w.print "Copy assignment operator called.\n", ?_, rfl, rfl,
      sameView_of_buf rfl rfl⟩
    unfold assign_copy
    simp
  · refine ⟨w.print "Move assignment operator called.\n", ?_, rfl, rfl,
      sameView_of_buf rfl rfl⟩
    unfold assign_move
    simp

/-- C11: when `push_back` has to grow (size equals capacity, twice the capacity
representable) and the request for the new buffer fails, both overloads end
with `std::bad_alloc`, however the argument is passed, and the object store
and the free store are exactly as before the call: same buffer, still
allocated, same size, same capacity, same elements, and the value is not
appended. -/
theorem push_back_alloc_failure [Inhabited α] (this : Nat) (value : Arg α) (w : World α)
    (rest : List Bool) (hfull : size this w = capacity this w)
    (hrep : capacity this w * 2 < SIZE_MOD) (hfail : w.allocFails = true :: rest) :
    ∃ w1, push_back this value w = .threw .bad_alloc w1 ∧
      push_back_rv this value w = .threw .bad_alloc w1 ∧
      w1.objs = w.objs ∧ w1.blocks = w.blocks ∧ SameView this w w1 := by
  simp only [size, capacity] at hfull hrep
  have hnc : (w.objs this).size_ <
      (if (w.objs this).capacity_ = 0 then 1 else (w.objs this).capacity_ * 2 % SIZE_MOD) := by
    split
    · omega
    · rw [Nat.mod_eq_of_lt hrep]; omega
  obtain ⟨w1, hr, ho, hb, -⟩ := resize_alloc_fail this _ w rest hfail hnc
  have hp : push_back this value w = .threw .bad_alloc w1 := by
    unfold push_back
    simp only [ge_iff_le, hfull, le_refl, if_true, hr]
  exact ⟨w1, hp, by rw [push_back_rv_eq]; exact hp, ho, hb,
    sameView_of_buf (by rw [ho]) (by rw [hb])⟩

/-- Witness for C11: a push onto the full object `1` of `sampleFail`. -/
theorem push_back_alloc_failure_witness :
    size 1 sampleFail = capacity 1 sampleFail ∧ capacity 1 sampleFail * 2 < SIZE_MOD ∧
    sampleFail.allocFails = true :: [] ∧
    ∃ w1, push_back 1 (.val 4) sampleFail = .threw .bad_alloc w1 ∧
      push_back_rv 1 (.val 4) sampleFail = .threw .bad_alloc w1 ∧
      w1.objs = sampleFail.objs ∧ w1.blocks = sampleFail.blocks ∧ SameView 1 sampleFail w1 :=
  ⟨by decide, by decide, rfl,
    push_back_alloc_failure 1 (.val 4) sampleFail [] (by decide) (by decide) rfl⟩

/-- C12, as amended: when the shrink of `pop_back` is triggered and the request
for the new buffer fails, the call ends with `std::bad_alloc` after `size_` has
been decremented: the size is one less than before, the capacity, the buffer
and the free store are as before, every other object is untouched, the object
is still valid, and every index below the new size designates the element it
designated before. -/
theorem pop_back_alloc_failure [Inhabited α] (this : Nat) (w : World α) (rest : List Bool)
    (hpos : 0 < size this w) (hle : size this w ≤ capacity this w)
    (htr : size this w - 1 = capacity this w / 4) (hfail : w.allocFails = true :: rest) :
    ∃ w1, pop_back this w = .threw .bad_alloc w1 ∧
      size this w1 = size this w - 1 ∧ capacity this w1 = capacity this w ∧
      (w1.objs this).data_ = (w.objs this).data_ ∧ w1.blocks = w.blocks ∧
      (∀ k, k ≠ this → w1.objs k = w.objs k) ∧
      (Valid this w → Valid this w1) ∧
      ∀ i, i < size this w - 1 → load (index this i w1) w1 = load (index this i w) w := by
  simp only [size, capacity] at *
  obtain ⟨w0, hw0⟩ : ∃ w0, w0 =
      w.setObj this { (w.objs this) with size_ := (w.objs this).size_ - 1 } := ⟨_, rfl⟩
  have hd0 : (w0.objs this).data_ = (w.objs this).data_ := by rw [hw0]; simp
  have hs0 : (w0.objs this).size_ = (w.objs this).size_ - 1 := by rw [hw0]; simp
  have hc0 : (w0.objs this).capacity_ = (w.objs this).capacity_ := by rw [hw0]; simp
  have hbl0 : w0.blocks = w.blocks := by rw [hw0]; rfl
  have hoth0 : ∀ k, k ≠ this → w0.objs k = w.objs k := by
    intro k hk; rw [hw0]; simp [setObj_objs, hk]
  have hnc : (w0.objs this).size_ <
      (if (w.objs this).capacity_ / 2 = 0 then 1 else (w.objs this).capacity_ / 2) := by
    rw [hs0]; split <;> omega
  obtain ⟨w1, hr, ho, hb, -⟩ := resize_alloc_fail this _ w0 rest (by rw [hw0]; exact hfail) hnc
  refine ⟨w1, ?_, by rw [ho, hs0], by rw [ho, hc0], by rw [ho, hd0], by rw [hb, hbl0],
    fun k hk => by rw [ho, hoth0 k hk], ?_, ?_⟩
  · unfold pop_back
    rw [if_pos hpos]
    simp only [← hw0, hc0, hs0]
    rw [if_pos ⟨by omega, htr⟩, hr]
  · intro hv
    obtain ⟨h1, h2, h3⟩ := hv
    refine ⟨by rw [ho, hs0, hc0]; omega, by rw [ho, hc0]; exact h2, ?_⟩
    rw [ho, hd0, hc0, hb, hbl0]; exact h3
  · intro i _
    simp only [load, index, rd_eq, ho, hd0, hb, hbl0]

/-- Witness for C12: popping the only element of object `0` of `sampleFail`
(capacity 3). -/
theorem pop_back_alloc_failure_witness :
    0 < size 0 sampleFail ∧ size 0 sampleFail ≤ capacity 0 sampleFail ∧
    size 0 sampleFail - 1 = capacity 0 sampleFail / 4 ∧ sampleFail.allocFails = true :: [] ∧
    ∃ w1, pop_back 0 sampleFail = .threw .bad_alloc w1 ∧
      size 0 w1 = size 0 sampleFail - 1 ∧ capacity 0 w1 = capacity 0 sampleFail ∧
      (w1.objs 0).data_ = (sampleFail.objs 0).data_ ∧ w1.blocks = sampleFail.blocks ∧
      (∀ k, k ≠ 0 → w1.objs k = sampleFail.objs k) ∧
      (Valid 0 sampleFail → Valid 0 w1) ∧
      ∀ i, i < size 0 sampleFail - 1 →
        load (index 0 i w1) w1 = load (index 0 i sampleFail) sampleFail :=
  ⟨by decide, by decide, by decide, rfl,
    pop_back_alloc_failure 0 sampleFail [] (by decide) (by decide) (by decide) rfl⟩

/-- Counterexample to C12 as stated: object `0` of `sampleFail` is valid with
one element; the shrink of `pop_back` fails to allocate, `std::bad_alloc`
leaves the call, and the size is then 0, not the 1 it was before the call. -/
theorem pop_back_alloc_failure_size_changed :
    Valid 0 sampleFail ∧ size 0 sampleFail = 1 ∧
    ∃ w1, pop_back 0 sampleFail = .threw .bad_alloc w1 ∧ size 0 w1 = 0 ∧
      size 0 w1 ≠ size 0 sampleFail := by
  refine ⟨by decide, by decide, _, rfl, ?_, ?_⟩ <;> decide

/-- C13, evaluated at the failing input: objects `1` and `0` of `sampleFail` are
valid and own separate buffers, object `1` holding `8, 9`; the copy assignment
of `0` to `1` releases that buffer, then fails to allocate, and ends with
`std::bad_alloc` with object `1` keeping its old fields: its `data_` now
designates a released block and the object is no longer valid. -/
theorem assign_copy_alloc_failure_releases :
    Valid 1 sampleFail ∧ Valid 0 sampleFail ∧ Separate 1 0 sampleFail ∧
    bufAt sampleFail.blocks (sampleFail.objs 1).data_ = some [8, 9] ∧
    ∃ w1, assign_copy 1 0 sampleFail = .threw .bad_alloc w1 ∧
      w1.objs 1 = sampleFail.objs 1 ∧ bufAt w1.blocks (w1.objs 1).data_ = none ∧
      ¬ Valid 1 w1 := by
  refine ⟨by decide, by decide, by decide, by decide, ?_⟩
  obtain ⟨w1, h, ho, hdead, -⟩ := assign_copy_alloc_fail 1 0 sampleFail [] (by decide)
    (show bufAt sampleFail.blocks (sampleFail.objs 1).data_ = some [8, 9] by decide) rfl
  have hd : bufAt w1.blocks (w1.objs 1).data_ = none := by
    rw [ho]; exact hdead 1 rfl
  refine ⟨w1, h, by rw [ho], hd, ?_⟩
  intro hv
  obtain ⟨-, -, h3⟩ := hv
  rw [hd] at h3
  cases h3

/-- C14: `pop_back` on a container of size 0, whatever its capacity, returns
without an error in the very state it was called in: size 0, the capacity, the
fields, the free store, the output and the allocation script are unchanged, so
nothing was reallocated and no request was made. -/
theorem pop_back_on_empty [Inhabited α] (this : Nat) (w : World α) (h : size this w = 0) :
    pop_back this w = .ok w ∧
    ∃ w1, pop_back this w = .ok w1 ∧ size this w1 = 0 ∧
      capacity this w1 = capacity this w ∧ w1.objs = w.objs ∧ w1.blocks = w.blocks ∧
      w1.cout = w.cout ∧ w1.allocFails = w.allocFails :=
  ⟨pop_back_empty this w h, w, pop_back_empty this w h, h, rfl, rfl, rfl, rfl, rfl⟩

/-- Witness for C14: a default-constructed object (capacity 0) and an empty
object of capacity 4. -/
theorem pop_back_on_empty_witness :
    (size 0 (World.init : World Nat) = 0 ∧ capacity 0 (World.init : World Nat) = 0 ∧
      pop_back 0 (World.init : World Nat) = .ok World.init) ∧
    (size 0 sampleReserved = 0 ∧ capacity 0 sampleReserved = 4 ∧
      pop_back 0 sampleReserved = .ok sampleReserved) :=
  ⟨⟨by decide, by decide, (pop_back_on_empty 0 World.init (by decide)).1⟩,
    ⟨by decide, by decide, (pop_back_on_empty 0 sampleReserved (by decide)).1⟩⟩

/-- C15: for a valid container, `operator<<` appends to the stream exactly
`Vector(size=` n `, capacity=` c `) [`, then the renderings of the elements at
indices 0 to n-1 in index order separated by `", "` with no leading or trailing
separator, then `]`, where n is `size()`, c is `capacity()` and the elements
are those that indexing gives; an empty container renders with `[]`. -/
theorem operator_shl_rendering (render : α → String) (os : String) (vec : Nat)
    (w : World α) (hv : Valid vec w) :
    operator_shl render os vec w =
      some (os ++ spec_rendering render (size vec w) (capacity vec w) (elems vec w)) ∧
    (elems vec w).length = size vec w ∧
    (∀ i, i < size vec w → load (index_const vec i w) w = (elems vec w)[i]?) ∧
    (size vec w = 0 →
      operator_shl render os vec w =
        some (os ++ "Vector(size=" ++ toString (size vec w) ++ ", capacity=" ++
          toString (capacity vec w) ++ ") []")) := by
  have hlen := elems_length hv
  have hmain : operator_shl render os vec w =
      some (os ++ spec_rendering render (size vec w) (capacity vec w) (elems vec w)) := by
    unfold operator_shl spec_rendering
    rcases hn : (w.objs vec).size_ with _ | k
    · have he : elems vec w = [] := by
        apply List.eq_nil_of_length_eq_zero; rw [hlen, hn]
      simp only [size, hn, print_elems, he, List.map_nil, String.intercalate]
      simp [String.append_assoc]
    · have hsp := print_elems_spec render vec w
        (os ++ "Vector(size=" ++ toString (size vec w) ++ ", capacity=" ++
          toString (capacity vec w) ++ ") [") hv k (by omega)
      rw [if_neg (by omega)] at hsp
      have htake : ((elems vec w).map render).take (k + 1) = (elems vec w).map render := by
        apply List.take_of_length_le; simp [hlen, hn]
      rw [htake] at hsp
      simp only [size] at hsp ⊢
      rw [hn] at hsp ⊢
      rw [hsp]
      simp [String.append_assoc]
  refine ⟨hmain, hlen, fun i hi => load_index hv i hi, ?_⟩
  intro h0
  rw [hmain]
  have he : elems vec w = [] := by
    apply List.eq_nil_of_length_eq_zero; rw [hlen]; exact h0
  simp [spec_rendering, he, String.intercalate, String.append_assoc]

/-- Witness for C15: object `0` of `sample3`; and the run that pushes 1, 2, 3,
4, 5 onto a default-constructed object and pops twice renders as
`Vector(size=3, capacity=8) [1, 2, 3]`. -/
theorem operator_shl_rendering_witness :
    Valid 0 sample3 ∧
    operator_shl toString "" 0 sample3 =
      some ("" ++
        spec_rendering toString (size 0 sample3) (capacity 0 sample3) (elems 0 sample3)) ∧
    operator_shl toString "" 0 sample3 = some "Vector(size=3, capacity=8) [1, 2, 3]" ∧
    (match push_all 0 [1, 2, 3, 4, 5] (World.init : World Nat) with
      | .ok w1 =>
        match pop_back 0 w1 with
        | .ok w2 =>
          match pop_back 0 w2 with
          | .ok w3 => operator_shl toString "" 0 w3
          | _ => none
        | _ => none
      | _ => none) = some "Vector(size=3, capacity=8) [1, 2, 3]" :=
  ⟨by decide, (operator_shl_rendering toString "" 0 sample3 (by decide)).1, by decide,
    by decide⟩

/-- C16: the `push_back` calls for a sequence of N values on a
default-constructed container, with no allocation failing and N at most half
the range of `size_t`, all return, and the iterations of the element loop of
`resize` summed over the run are at most 2N. -/
theorem push_back_amortized [Inhabited α] (this : Nat) (xs : List α) (w0 w : World α)
    (hdef : ctor_default this w0 = .ok w) (hnf : NoFail w0)
    (hN : xs.length ≤ SIZE_MOD / 2) :
    (∃ w1, push_all this xs w = .ok w1) ∧
    push_all_transfers this xs w ≤ 2 * xs.length := by
  simp only [ctor_default, Outcome.ok.injEq] at hdef
  have ho : w.objs this = ⟨none, 0, 0⟩ := by rw [← hdef]; simp
  have hv : Valid this w := valid_of_empty ho
  have hnfw : NoFail w := by rw [← hdef]; exact hnf
  obtain ⟨w1, hp, -, -, hs1, -⟩ := push_all_ok this xs w hv hnfw (by rw [ho]; simp only; omega)
  obtain ⟨w2, hp2, ht, hd⟩ := push_all_growth this xs w hv hnfw (by rw [ho]; simp only; omega)
  rw [hp] at hp2
  simp only [Outcome.ok.injEq] at hp2
  subst hp2
  refine ⟨⟨w1, hp⟩, ?_⟩
  have hd1 := hd (Or.inl ⟨by rw [ho], by rw [ho]⟩)
  rw [ho] at hs1 ht
  simp only [Nat.zero_add, Nat.add_zero] at hs1 ht
  rcases hd1 with ⟨-, h2⟩ | ⟨k, -, -, h3⟩
  · omega
  · omega

/-- Witness for C16: five pushes on a default-constructed object make
0 + 1 + 2 + 0 + 4 = 7 transfers. -/
theorem push_back_amortized_witness :
    ctor_default 0 (World.init : World Nat) = .ok (World.init.setObj 0 ⟨none, 0, 0⟩) ∧
    NoFail (World.init : World Nat) ∧
    ((∃ w1, push_all 0 [1, 2, 3, 4, 5] ((World.init : World Nat).setObj 0 ⟨none, 0, 0⟩) =
        .ok w1) ∧
      push_all_transfers 0 [1, 2, 3, 4, 5] ((World.init : World Nat).setObj 0 ⟨none, 0, 0⟩) ≤
        2 * [1, 2, 3, 4, 5].length) ∧
    push_all_transfers 0 [1, 2, 3, 4, 5] ((World.init : World Nat).setObj 0 ⟨none, 0, 0⟩) = 7 :=
  ⟨rfl, by decide,
    push_back_amortized 0 [1, 2, 3, 4, 5] World.init _ rfl (by decide) (by decide),
    by decide⟩

/-- C17, evaluated at the failing input: an object copy-constructed from a
default-constructed object, and an object copy-assigned from one, have
capacity 0 and a `data_` that is not null, the result of `new T[0]`. -/
theorem copy_of_empty_not_null :
    (∃ w0 w1, ctor_default 0 (World.init : World Nat) = .ok w0 ∧ ctor_copy 1 0 w0 = .ok w1 ∧
      capacity 1 w1 = 0 ∧ (w1.objs 1).data_ ≠ none) ∧
    (∃ w0 w1 w2, ctor_default 0 (World.init : World Nat) = .ok w0 ∧
      ctor_default 1 w0 = .ok w1 ∧ assign_copy 1 0 w1 = .ok w2 ∧
      capacity 1 w2 = 0 ∧ (w2.objs 1).data_ ≠ none) := by
  refine ⟨⟨_, _, rfl, rfl, ?_, ?_⟩, ⟨_, _, _, rfl, rfl, rfl, ?_, ?_⟩⟩ <;> decide

/-- C18: after the `push_back` calls for a sequence of N values on a
default-constructed container, with no allocation failing and N at most half
the range of `size_t`, `capacity()` is 0 when N is 0 and otherwise a power of
two that is at least N and not larger than any other power of two that is at
least N. -/
theorem push_back_n_capacity [Inhabited α] (this : Nat) (xs : List α) (w0 w : World α)
    (hdef : ctor_default this w0 = .ok w) (hnf : NoFail w0)
    (hN : xs.length ≤ SIZE_MOD / 2) :
    ∃ w1, push_all this xs w = .ok w1 ∧
      (xs.length = 0 → capacity this w1 = 0) ∧
      (0 < xs.length →
        ∃ k, capacity this w1 = 2 ^ k ∧ xs.length ≤ 2 ^ k ∧
          ∀ j, xs.length ≤ 2 ^ j → 2 ^ k ≤ 2 ^ j) := by
  simp only [ctor_default, Outcome.ok.injEq] at hdef
  have ho : w.objs this = ⟨none, 0, 0⟩ := by rw [← hdef]; simp
  have hv : Valid this w := valid_of_empty ho
  have hnfw : NoFail w := by rw [← hdef]; exact hnf
  obtain ⟨w1, hp, -, -, hs1, -⟩ := push_all_ok this xs w hv hnfw (by rw [ho]; simp only; omega)
  obtain ⟨w2, hp2, -, hd⟩ := push_all_growth this xs w hv hnfw (by rw [ho]; simp only; omega)
  rw [hp] at hp2
  simp only [Outcome.ok.injEq] at hp2
  subst hp2
  have hd1 := hd (Or.inl ⟨by rw [ho], by rw [ho]⟩)
  rw [ho] at hs1
  simp only [Nat.zero_add] at hs1
  refine ⟨w1, hp, ?_, ?_⟩
  · intro h0
    rcases hd1 with ⟨-, h2⟩ | ⟨k, -, -, h3⟩
    · exact h2
    · omega
  · intro hpos
    rcases hd1 with ⟨h1, -⟩ | ⟨k, hk, h2, h3⟩
    · omega
    · refine ⟨k, hk, by rw [← hk, ← hs1]; exact h2, ?_⟩
      rw [← hs1]
      exact pow_two_least (by rw [← hk]; exact h3)

/-- Witness for C18: five pushes on a default-constructed object; the
capacities after the pushes are 1, 2, 4, 4, 8. -/
theorem push_back_n_capacity_witness :
    ctor_default 0 (World.init : World Nat) = .ok (World.init.setObj 0 ⟨none, 0, 0⟩) ∧
    NoFail (World.init : World Nat) ∧
    (∃ w1, push_all 0 [1, 2, 3, 4, 5] ((World.init : World Nat).setObj 0 ⟨none, 0, 0⟩) =
        .ok w1 ∧
      ([1, 2, 3, 4, 5].length = 0 → capacity 0 w1 = 0) ∧
      (0 < [1, 2, 3, 4, 5].length →
        ∃ k, capacity 0 w1 = 2 ^ k ∧ [1, 2, 3, 4, 5].length ≤ 2 ^ k ∧
          ∀ j, [1, 2, 3, 4, 5].length ≤ 2 ^ j → 2 ^ k ≤ 2 ^ j)) ∧
    push_all_capacities 0 [1, 2, 3, 4, 5] ((World.init : World Nat).setObj 0 ⟨none, 0, 0⟩) =
      [1, 2, 4, 4, 8] :=
  ⟨rfl, by decide,
    push_back_n_capacity 0 [1, 2, 3, 4, 5] World.init _ rfl (by decide) (by decide),
    by decide⟩

/-- C19: on a valid container with twice the capacity representable, the guard
of `resize` is not taken when the capacity check of `push_back` calls it; in
the state in which the check returns, `size < capacity` holds and the object
is valid, so the assignment of any value to slot `size` lies inside the
buffer; a call of either overload has undefined behaviour only by reading its
argument, that is, exactly when the check returns and the argument cannot be
read in the state it leaves, never when a value is handed over; and the check
does return when no allocation fails. -/
theorem push_back_slot_in_bounds [Inhabited α] (this : Nat) (value : Arg α) (w : World α)
    (hv : Valid this w) (hrep : capacity this w * 2 < SIZE_MOD) :
    (capacity this w ≤ size this w →
      ¬ (if capacity this w = 0 then 1 else capacity this w * 2 % SIZE_MOD) ≤ size this w) ∧
    (∀ w1, push_back_grow this w = .ok w1 →
      size this w1 < capacity this w1 ∧ Valid this w1 ∧
      ∀ x, ∃ w2, wr (w1.objs this).data_ (w1.objs this).size_ x w1 = some w2) ∧
    (push_back this value w = .ub ↔
      ∃ wg, push_back_grow this w = .ok wg ∧ value.read wg = none) ∧
    (push_back_rv this value w = .ub ↔
      ∃ wg, push_back_grow this w = .ok wg ∧ value.read wg = none) ∧
    (∀ x, push_back this (.val x) w ≠ .ub ∧ push_back_rv this (.val x) w ≠ .ub) ∧
    (NoFail w → ∃ w1, push_back_grow this w = .ok w1) := by
  simp only [size, capacity] at *
  have hle := hv.1
  have hwr : ∀ w1, push_back_grow this w = .ok w1 →
      (w1.objs this).size_ < (w1.objs this).capacity_ ∧ Valid this w1 ∧
      ∀ x, ∃ w2, wr (w1.objs this).data_ (w1.objs this).size_ x w1 = some w2 := by
    intro w1 h1
    rcases push_back_grow_cases this w hv (fun _ => hrep) with
      ⟨w2, h2, -⟩ | ⟨w2, h2, hv2, -, hlt, -⟩
    · rw [h1] at h2; cases h2
    · rw [h1] at h2
      simp only [Outcome.ok.injEq] at h2
      subst h2
      obtain ⟨b, hb, hl⟩ := valid_buf hv2
      refine ⟨hlt, hv2, fun x => ?_⟩
      obtain ⟨w3, hw, -⟩ := wr_ok (w1.objs this).size_ x hb (by omega)
      exact ⟨w3, hw⟩
  have hub : push_back this value w = .ub ↔
      ∃ wg, push_back_grow this w = .ok wg ∧ value.read wg = none := by
    rcases hg : push_back_grow this w with wg | ⟨e, wg⟩ | _
    · rcases hr : value.read wg with _ | x
      · rw [push_back_ub_of_unreadable this value w wg hg hr]
        exact ⟨fun _ => ⟨wg, rfl, hr⟩, fun _ => rfl⟩
      · obtain ⟨-, -, hx⟩ := hwr wg hg
        obtain ⟨w2, hw2⟩ := hx x
        rw [push_back_eq_grow, hg]
        simp only [hr, hw2]
        constructor
        · intro h; cases h
        · rintro ⟨wg1, h1, h2⟩
          cases h1
          rw [hr] at h2; cases h2
    · rw [push_back_of_grow_threw this value w wg e hg]
      constructor
      · intro h; cases h
      · rintro ⟨wg1, h1, -⟩; cases h1
    · rcases push_back_grow_cases this w hv (fun _ => hrep) with
        ⟨w2, h2, -⟩ | ⟨w2, h2, -⟩ <;> rw [hg] at h2 <;> cases h2
  have hval : ∀ x, push_back this (.val x) w ≠ .ub := by
    intro x
    rcases push_back_cases this x w hv (fun _ => hrep) with ⟨w1, h, -⟩ | ⟨w1, h, -⟩ <;>
      rw [h] <;> exact fun e => by cases e
  refine ⟨?_, hwr, hub, by rw [push_back_rv_eq]; exact hub,
    fun x => ⟨hval x, by rw [push_back_rv_eq]; exact hval x⟩, ?_⟩
  · intro h
    split
    · omega
    · rw [Nat.mod_eq_of_lt hrep]; omega
  · intro hnf
    rcases push_back_grow_cases this w hv (fun _ => hrep) with
      ⟨w2, -, hno, -⟩ | ⟨w2, h2, -⟩
    · exact absurd hnf hno
    · exact ⟨w2, h2⟩

/-- Witness for C19: a push onto the full object `1` of `sampleSmall`, handed
its own element 0. -/
theorem push_back_slot_in_bounds_witness :
    Valid 1 sampleSmall ∧ capacity 1 sampleSmall * 2 < SIZE_MOD ∧
    (capacity 1 sampleSmall ≤ size 1 sampleSmall →
      ¬ (if capacity 1 sampleSmall = 0 then 1 else capacity 1 sampleSmall * 2 % SIZE_MOD) ≤
        size 1 sampleSmall) ∧
    (∀ w1, push_back_grow 1 sampleSmall = .ok w1 →
      size 1 w1 < capacity 1 w1 ∧ Valid 1 w1 ∧
      ∀ x, ∃ w2, wr (w1.objs 1).data_ (w1.objs 1).size_ x w1 = some w2) ∧
    (push_back 1 (.cell (index 1 0 sampleSmall)) sampleSmall = .ub ↔
      ∃ wg, push_back_grow 1 sampleSmall = .ok wg ∧
        (Arg.cell (index 1 0 sampleSmall)).read wg = none) ∧
    (push_back_rv 1 (.cell (index 1 0 sampleSmall)) sampleSmall = .ub ↔
      ∃ wg, push_back_grow 1 sampleSmall = .ok wg ∧
        (Arg.cell (index 1 0 sampleSmall)).read wg = none) ∧
    (∀ x, push_back 1 (.val x) sampleSmall ≠ .ub ∧ push_back_rv 1 (.val x) sampleSmall ≠ .ub) ∧
    (NoFail sampleSmall → ∃ w1, push_back_grow 1 sampleSmall = .ok w1) :=
  ⟨by decide, by decide,
    push_back_slot_in_bounds 1 (.cell (index 1 0 sampleSmall)) sampleSmall (by decide)
      (by decide)⟩

end MyVec
